import Mathlib

/-!
Verification of the memoization utilities of the fp-js-kereki notes
(`memoize`, `memoize2`, `memoize3`, `memoize4`, and the memoized `fib`).

The JavaScript code is shallowly embedded:
* JS values are the inductive `JSVal` (numbers are modelled as `Int`:
  every number appearing in the memoization examples is an integer,
  and `Int` avoids floating-point artefacts that play no role here);
* the plain-object cache `let cache = {}` is an association list of own
  properties together with the inherited `Object.prototype` keys, so the
  `x in cache` test and `cache[x]` lookup follow real JS semantics
  (inherited properties are visible to `in` and to property reads);
* property keys are coerced to strings exactly as JS coerces them
  (`ToString` of the value), and `JSON.stringify` is modelled including
  its treatment of functions/`undefined` (dropped in objects, `null` in
  arrays);
* a wrapped function that can throw is `JSVal → Except String JSVal`;
  `cache[k] = fn(x)` first evaluates `fn(x)`, so a throw leaves the
  cache untouched, which the model mirrors.
-/

/-! ### Decimal digits (JS `ToString` of an integer)

Defined with a fuel argument so that the function is structurally
recursive and therefore reducible by `rfl`/`decide` on concrete inputs.
`natDigitsAux fuel n` is correct whenever `n ≤ fuel`.
-/

def digitChar (n : Nat) : Char := Char.ofNat (48 + n)

def natDigitsAux : Nat → Nat → List Char
  | 0, n => [digitChar n]
  | fuel + 1, n =>
    if n < 10 then [digitChar n]
    else natDigitsAux fuel (n / 10) ++ [digitChar (n % 10)]

/-- Decimal digit list of a natural number, most significant first. -/
def natDigits (n : Nat) : List Char := natDigitsAux n n

/-- Decimal string of a natural number, as JS `ToString` renders it. -/
def natStr (n : Nat) : String := ⟨natDigits n⟩

/-- Character list of JS `ToString` applied to an integer. -/
def intChars (i : Int) : List Char :=
  if i < 0 then '-' :: natDigits i.natAbs else natDigits i.toNat

/-- JS `ToString` of an integer. -/
def intStr (i : Int) : String := ⟨intChars i⟩

theorem natDigitsAux_fuel {n fuel : Nat} (h : n ≤ fuel) :
    natDigitsAux fuel n = natDigitsAux n n := by
  induction n using Nat.strong_induction_on generalizing fuel with
  | _ n ih =>
    rcases fuel with _ | fuel
    · have hn : n = 0 := Nat.le_zero.mp h
      subst hn; rfl
    · rcases n with _ | m
      · rfl
      · by_cases h10 : m + 1 < 10
        · simp [natDigitsAux, h10]
        · have hdiv : (m + 1) / 10 < m + 1 := Nat.div_lt_self (Nat.succ_pos m) (by omega)
          have h1 : (m + 1) / 10 ≤ fuel := by omega
          have h2 : (m + 1) / 10 ≤ m := by omega
          simp only [natDigitsAux, h10, if_false]
          rw [ih _ hdiv h1, ← ih _ hdiv h2]

/-- The defining recurrence of `natDigits`, free of fuel. -/
theorem natDigits_eq (n : Nat) :
    natDigits n = if n < 10 then [digitChar n]
                  else natDigits (n / 10) ++ [digitChar (n % 10)] := by
  by_cases h10 : n < 10
  · rcases n with _ | m
    · simp [natDigits, natDigitsAux]
    · simp [natDigits, natDigitsAux, h10]
  · rcases n with _ | m
    · exact absurd (by omega) h10
    · simp only [natDigits, natDigitsAux, h10, if_false]
      have hdiv : (m + 1) / 10 ≤ m := by omega
      rw [natDigitsAux_fuel hdiv]

/-- A decimal digit character (code 48–57). -/
def isDigitCh (c : Char) : Prop := 48 ≤ c.toNat ∧ c.toNat ≤ 57

instance (c : Char) : Decidable (isDigitCh c) := by
  unfold isDigitCh; infer_instance

theorem digitChar_isDigit {d : Nat} (h : d < 10) : isDigitCh (digitChar d) := by
  interval_cases d <;> decide

theorem natDigits_ne_nil (n : Nat) : natDigits n ≠ [] := by
  rw [natDigits_eq]
  by_cases h : n < 10 <;> simp [h]

theorem natDigits_all_digits (n : Nat) : ∀ c ∈ natDigits n, isDigitCh c := by
  induction n using Nat.strong_induction_on with
  | _ n ih =>
    rw [natDigits_eq]
    by_cases h : n < 10
    · simp only [h, if_true, List.mem_singleton]
      rintro c rfl
      exact digitChar_isDigit h
    · simp only [h, if_false, List.mem_append, List.mem_singleton]
      rintro c (hc | rfl)
      · exact ih (n / 10) (Nat.div_lt_self (by omega) (by omega)) c hc
      · exact digitChar_isDigit (Nat.mod_lt _ (by omega))

/-- Numeric value of a digit list (used to invert `natDigits`). -/
def digitsVal (ds : List Char) : Nat := ds.foldl (fun a c => 10 * a + (c.toNat - 48)) 0

theorem digitsVal_append (xs ys : List Char) :
    digitsVal (xs ++ ys) = ys.foldl (fun a c => 10 * a + (c.toNat - 48)) (digitsVal xs) := by
  simp [digitsVal, List.foldl_append]

theorem digitChar_toNat {d : Nat} (h : d < 10) : (digitChar d).toNat = 48 + d := by
  interval_cases d <;> decide

theorem digitsVal_natDigits (n : Nat) : digitsVal (natDigits n) = n := by
  induction n using Nat.strong_induction_on with
  | _ n ih =>
    rw [natDigits_eq]
    by_cases h : n < 10
    · simp [h, digitsVal, digitChar_toNat h]
    · simp only [h, if_false, digitsVal_append]
      rw [ih (n / 10) (Nat.div_lt_self (by omega) (by omega))]
      have hm : n % 10 < 10 := by omega
      simp [List.foldl, digitChar_toNat hm]
      omega

theorem natDigits_inj {m n : Nat} (h : natDigits m = natDigits n) : m = n := by
  have := digitsVal_natDigits m
  rw [h, digitsVal_natDigits] at this
  omega

theorem natStr_inj {m n : Nat} (h : natStr m = natStr n) : m = n :=
  natDigits_inj (congrArg String.data h)

/-! ### JS values

`JSVal` models the JavaScript values the memoization notes manipulate.
Arrays and objects are separate mutual inductives (`JSList`, `JSPairs`)
to keep structural recursion and induction straightforward.
`fnVal` is an opaque function value (identified by a tag), and
`protoMember` stands for a member inherited from `Object.prototype`
(e.g. the native `toString` function), a host value no wrapped function
ever produces.
-/

mutual
inductive JSVal where
  | num (i : Int)
  | str (s : String)
  | bool (b : Bool)
  | null
  | undefined
  | fnVal (id : Nat)
  | protoMember (name : String)
  | arr (xs : JSList)
  | obj (ps : JSPairs)
inductive JSList where
  | nil
  | cons (v : JSVal) (tl : JSList)
inductive JSPairs where
  | nil
  | cons (k : String) (v : JSVal) (tl : JSPairs)
end

deriving instance DecidableEq for JSVal
deriving instance DecidableEq for JSList
deriving instance DecidableEq for JSPairs

/-- Embed a Lean list of values as a JS array. -/
def toJSList : List JSVal → JSList
  | [] => .nil
  | v :: tl => .cons v (toJSList tl)

theorem toJSList_inj : ∀ {a b : List JSVal}, toJSList a = toJSList b → a = b
  | [], [], _ => rfl
  | [], _ :: _, h => by simp [toJSList] at h
  | _ :: _, [], h => by simp [toJSList] at h
  | x :: xs, y :: ys, h => by
    simp only [toJSList, JSList.cons.injEq] at h
    exact congrArg₂ _ h.1 (toJSList_inj h.2)

/-- The double-quote character. -/
def qc : Char := Char.ofNat 34

/-- The backslash character. -/
def bsc : Char := Char.ofNat 92

/-- The opening curly brace character. -/
def lbr : Char := Char.ofNat 123

/-- The closing curly brace character. -/
def rbr : Char := Char.ofNat 125

mutual
/-- JS `ToString` of a value, as used when a value is coerced to a
property key by `cache[x]`.  Numbers print in decimal, arrays join their
elements with commas (`null`/`undefined` elements print as the empty
string), plain objects print as `[object Object]`.  Function values and
inherited native members have no stable printed source text in the
model; they are rendered from their opaque tag. -/
def jsToString : JSVal → String
  | .num i => intStr i
  | .str s => s
  | .bool true => "true"
  | .bool false => "false"
  | .null => "null"
  | .undefined => "undefined"
  | .fnVal id => "function " ++ natStr id
  | .protoMember name => "native " ++ name
  | .arr xs => jsListToString xs
  | .obj _ => "[object Object]"
def jsListToString : JSList → String
  | .nil => ""
  | .cons v tl =>
    (match v with
     | .null => ""
     | .undefined => ""
     | w => jsToString w) ++ jsListTailToString tl
def jsListTailToString : JSList → String
  | .nil => ""
  | .cons v tl =>
    "," ++ (match v with
            | .null => ""
            | .undefined => ""
            | w => jsToString w) ++ jsListTailToString tl
end

/-! ### The plain-object cache (`let cache = {}`)

Own properties are an association list (insertion order, no duplicate
keys are ever created because the memoizers only assign a key after the
`in` test failed).  A plain object also *inherits* the members of
`Object.prototype`; the JS `in` operator and property reads see them.
-/

/-- Own properties of the plain object, in insertion order. -/
abbrev Cache := List (String × JSVal)

/-- The keys `{} ` inherits from `Object.prototype`. -/
def objectProtoKeys : List String :=
  ["constructor", "hasOwnProperty", "isPrototypeOf", "propertyIsEnumerable",
   "toLocaleString", "toString", "valueOf",
   "__defineGetter__", "__defineSetter__", "__lookupGetter__",
   "__lookupSetter__", "__proto__"]

/-- Look up an own property. -/
def getOwn : Cache → String → Option JSVal
  | [], _ => none
  | (k', v) :: tl, k => if k' = k then some v else getOwn tl k

/-- Property assignment `cache[k] = v` (overwrites, else appends). -/
def setProp : Cache → String → JSVal → Cache
  | [], k, v => [(k, v)]
  | (k', v') :: tl, k, v =>
    if k' = k then (k, v) :: tl else (k', v') :: setProp tl k v

/-- The JS `k in cache` test: own properties *or* inherited ones. -/
def jsIn (c : Cache) (k : String) : Bool :=
  (getOwn c k).isSome || objectProtoKeys.contains k

/-- The JS property read `cache[k]`: an own property shadows the
prototype; absent keys read as `undefined`. -/
def jsGetProp (c : Cache) (k : String) : JSVal :=
  match getOwn c k with
  | some v => v
  | none => if objectProtoKeys.contains k then .protoMember k else .undefined

/-- Keys of the own properties. -/
def cacheKeys (c : Cache) : List String := c.map Prod.fst

/-! ### The memoizers

```
const memoize = fn => {
    let cache = {}
    return x => (x in cache ? cache[x] : (cache[x] = fn(x)));
}
```
One step of the returned closure is `memoizeStep`.  The state (the
captured `cache`) is passed explicitly; the `calls` field counts how
often `fn` was invoked during the step (0 or 1).  `fn` may throw
(`Except.error`); `cache[x] = fn(x)` evaluates `fn(x)` first, so a
throw propagates and leaves the cache unchanged.
-/

structure StepRes where
  ret : Except String JSVal
  cache : Cache
  calls : Nat

/-- One call of `memoize fn`'s returned closure on argument `x`. -/
def memoizeStep (fn : JSVal → Except String JSVal) (c : Cache) (x : JSVal) : StepRes :=
  let k := jsToString x
  if jsIn c k then ⟨.ok (jsGetProp c k), c, 0⟩
  else
    match fn x with
    | .ok v => ⟨.ok v, setProp c k v, 1⟩
    | .error e => ⟨.error e, c, 1⟩

/-- Lift a non-throwing JS function. -/
def pureFn (f : JSVal → JSVal) : JSVal → Except String JSVal :=
  fun x => .ok (f x)

/-- `typeof args[0]` is one of `["number", "string", "boolean"]`. -/
def isPrimitive : JSVal → Bool
  | .num _ | .str _ | .bool _ => true
  | _ => false

/-! ### `JSON.stringify`

Modelled for the value fragment `JSVal` covers: numbers (integers),
strings (with the standard escapes), booleans, `null`, arrays and plain
objects.  `undefined` and function values become `null` when they occur
as array elements and are dropped (key and all) when they occur as
object property values — exactly JS's behaviour.  `JSON.stringify` is
always applied to the `args` *array* by `memoize3`/`memoize4`, so the
top level is always an array and the array-element rule applies to
non-serializable arguments.  Circular structures (where JS throws a
`TypeError`) are not representable in the inductive `JSVal`.
-/

/-- Lowercase hexadecimal digit character. -/
def hexDigit (n : Nat) : Char :=
  if n < 10 then digitChar n else Char.ofNat (97 + (n - 10))

/-- JSON escaping of one string character. -/
def escChar (c : Char) : List Char :=
  if c = qc then [bsc, qc]
  else if c = bsc then [bsc, bsc]
  else if c.toNat = 8 then [bsc, 'b']
  else if c.toNat = 9 then [bsc, 't']
  else if c.toNat = 10 then [bsc, 'n']
  else if c.toNat = 12 then [bsc, 'f']
  else if c.toNat = 13 then [bsc, 'r']
  else if c.toNat < 32 then [bsc, 'u', '0', '0', hexDigit (c.toNat / 16), hexDigit (c.toNat % 16)]
  else [c]

/-- JSON escaping of a character list. -/
def escList : List Char → List Char
  | [] => []
  | c :: tl => escChar c ++ escList tl

/-- A JSON string literal: `"` + escaped content + `"`. -/
def encStr (s : String) : List Char := qc :: escList s.data ++ [qc]

/-- Property values of these shapes make `JSON.stringify` drop the
whole `key: value` pair from an object. -/
def emittable : JSVal → Bool
  | .undefined | .fnVal _ | .protoMember _ => false
  | _ => true

mutual
/-- `JSON.stringify` of one value in array-element position (where
`undefined` and functions serialize as `null`). -/
def encV : JSVal → List Char
  | .num i => intChars i
  | .str s => encStr s
  | .bool true => ['t', 'r', 'u', 'e']
  | .bool false => ['f', 'a', 'l', 's', 'e']
  | .null => ['n', 'u', 'l', 'l']
  | .undefined => ['n', 'u', 'l', 'l']
  | .fnVal _ => ['n', 'u', 'l', 'l']
  | .protoMember _ => ['n', 'u', 'l', 'l']
  | .arr xs => '[' :: encL xs ++ [']']
  | .obj ps => lbr :: encP ps ++ [rbr]
/-- Array body: elements separated by commas. -/
def encL : JSList → List Char
  | .nil => []
  | .cons v tl => encV v ++ encLT tl
/-- Array body after the first element. -/
def encLT : JSList → List Char
  | .nil => []
  | .cons v tl => ',' :: encV v ++ encLT tl
/-- Object body: `"key":value` pairs separated by commas; pairs whose
value is `undefined`/a function are dropped entirely. -/
def encP : JSPairs → List Char
  | .nil => []
  | .cons k v tl => if emittable v then encStr k ++ ':' :: encV v ++ encPT tl else encP tl
/-- Object body after the first emitted pair. -/
def encPT : JSPairs → List Char
  | .nil => []
  | .cons k v tl => if emittable v then ',' :: encStr k ++ ':' :: encV v ++ encPT tl else encPT tl
end

/-- `JSON.stringify(args)` — the structural cache key of
`memoize3`/`memoize4` (`args` is the array of call arguments). -/
def stringifyArgs (args : List JSVal) : String := ⟨encV (.arr (toJSList args))⟩

mutual
/-- The JSON-serializable fragment: no `undefined`, no function values,
no inherited native members anywhere. -/
def serV : JSVal → Bool
  | .num _ | .str _ | .bool _ | .null => true
  | .undefined | .fnVal _ | .protoMember _ => false
  | .arr xs => serL xs
  | .obj ps => serP ps
def serL : JSList → Bool
  | .nil => true
  | .cons v tl => serV v && serL tl
def serP : JSPairs → Bool
  | .nil => true
  | .cons _ v tl => serV v && serP tl
end

/-- Serializability of a plain argument list. -/
def serArgs (args : List JSVal) : Bool := args.all serV

/-! ### `memoize3` and `memoize4`

```
const memoize3 = fn => {
    let cache = {};
    const PRIMITIVES = ["number", "string", "boolean"];
    return (...args) => {
        let strX =
            args.length === 1 && PRIMITIVES.includes(typeof args[0])
                ? args[0]
                : JSON.stringify(args);
        return strX in cache ? cache[strX] : (cache[strX] = fn(...args));
    };
};
```
When the primitive path is taken, `strX` is the raw argument value and
is coerced to a string by the property access, i.e. by `jsToString`.
-/

/-- The cache key `memoize3` derives for an argument list (after the
property-key string coercion). -/
def memoize3Key (args : List JSVal) : String :=
  match args with
  | [a] => if isPrimitive a then jsToString a else stringifyArgs args
  | _ => stringifyArgs args

/-- One call of `memoize3 fn`'s returned closure. -/
def memoize3Step (fn : List JSVal → Except String JSVal) (c : Cache) (args : List JSVal) :
    StepRes :=
  let k := memoize3Key args
  if jsIn c k then ⟨.ok (jsGetProp c k), c, 0⟩
  else
    match fn args with
    | .ok v => ⟨.ok v, setProp c k v, 1⟩
    | .error e => ⟨.error e, c, 1⟩

/-- One call of `memoize4 fn`'s returned closure (`memoize4` always
stringifies the whole argument array). -/
def memoize4Step (fn : List JSVal → Except String JSVal) (c : Cache) (args : List JSVal) :
    StepRes :=
  let k := stringifyArgs args
  if jsIn c k then ⟨.ok (jsGetProp c k), c, 0⟩
  else
    match fn args with
    | .ok v => ⟨.ok v, setProp c k v, 1⟩
    | .error e => ⟨.error e, c, 1⟩

deriving instance DecidableEq for Except

/-! ### Runs of a memoized closure -/

/-- Run `memoize fn`'s closure over a list of successive arguments,
collecting each step's observation and threading the cache. -/
def runMemo (fn : JSVal → Except String JSVal) :
    List JSVal → Cache → List (Except String JSVal × Nat) × Cache
  | [], c => ([], c)
  | x :: xs, c =>
    let s := memoizeStep fn c x
    let r := runMemo fn xs s.cache
    ((s.ret, s.calls) :: r.1, r.2)

/-- How often `fn` is invoked, during a run, by steps whose derived
cache key is `k`. -/
def missCountOn (fn : JSVal → Except String JSVal) (k : String) :
    List JSVal → Cache → Nat
  | [], _ => 0
  | x :: xs, c =>
    let s := memoizeStep fn c x
    (if jsToString x = k then s.calls else 0) + missCountOn fn k xs s.cache

/-! ### `memoize2`

```
const memoize2 = fn => {
    if (fn.length === 1) {
        let cache = {};
        return x => (x in cache ? cache[x] : (cache[x] = fn(x)));
    } else {
        return fn;
    }
};
```
A JS function value is modelled with its declared arity (`fn.length`)
and its behaviour on an argument list.  The value `memoize2` returns is
either the original function (`bypass`) or a caching wrapper closing
over a cache (`wrapped`).
-/

structure JSFun where
  arity : Nat
  impl : List JSVal → Except String JSVal

inductive Memo2 where
  /-- The caching closure `x => (x in cache ? ... )` with its cache. -/
  | wrapped (fn : JSFun) (cache : Cache)
  /-- `memoize2` returned `fn` itself. -/
  | bypass (fn : JSFun)

def memoize2 (fn : JSFun) : Memo2 :=
  if fn.arity = 1 then .wrapped fn [] else .bypass fn

/-- Calling what `memoize2` returned on one argument.  (The wrapper is
unary; calling the bypassed `fn` forwards the argument to `fn`.) -/
def callMemo2 : Memo2 → JSVal → StepRes × Memo2
  | .wrapped fn c, x =>
    let s := memoizeStep (fun v => fn.impl [v]) c x
    (s, .wrapped fn s.cache)
  | .bypass fn, x => (⟨fn.impl [x], [], 1⟩, .bypass fn)

/-! ### Memoizer instances (for cache isolation)

Each evaluation of `memoize(fn)` creates a *fresh* `cache = {}` closed
over by the returned function; two instances never share it.
-/

structure Memoizer where
  fn : JSVal → Except String JSVal
  cache : Cache

/-- `memoize fn`: a new instance whose cache is created empty. -/
def mkMemoizer (fn : JSVal → Except String JSVal) : Memoizer := ⟨fn, []⟩

/-- Calling one instance's memoized closure. -/
def callInst (m : Memoizer) (x : JSVal) : (Except String JSVal × Nat) × Memoizer :=
  let s := memoizeStep m.fn m.cache x
  ((s.ret, s.calls), ⟨m.fn, s.cache⟩)

/-- Run an interleaved call schedule against a pair of instances;
`false` directs the call to the first instance, `true` to the second.
Observations record which instance answered, the result and the number
of `fn` invocations. -/
def runPair : List (Bool × JSVal) → Memoizer × Memoizer →
    List (Bool × Except String JSVal × Nat) × (Memoizer × Memoizer)
  | [], p => ([], p)
  | (which, x) :: rest, (m1, m2) =>
    if which then
      let (obs, m2') := callInst m2 x
      let r := runPair rest (m1, m2')
      ((true, obs) :: r.1, r.2)
    else
      let (obs, m1') := callInst m1 x
      let r := runPair rest (m1', m2)
      ((false, obs) :: r.1, r.2)

/-- Run a call list against a single instance, collecting observations. -/
def runInst : List JSVal → Memoizer → List (Except String JSVal × Nat) × Memoizer
  | [], m => ([], m)
  | x :: xs, m =>
    let (obs, m') := callInst m x
    let r := runInst xs m'
    (obs :: r.1, r.2)

/-! ### Fibonacci

```
function fib(n) {
    if (n == 0) { return 0; }
    else if (n == 1) { return 1; }
    else { return fib(n - 2) + fib(n - 1); }
}
```
modelled on its terminating domain (the naturals).  `fibCalls n` counts
how many times the `fib` body runs while computing `fib(n)` unmemoized.
After the rebinding `fib = memoize(fib)` the recursive occurrences of
`fib` inside the body resolve to the memoized closure, so every call —
outer and inner — first consults the cache: that is `memoFib`.  It is
written with a fuel argument (sufficient whenever `fuel ≥ n`) to stay
structurally recursive; `memoFib n = memoFibAux n n` supplies it.
-/

def plainFib : Nat → Int
  | 0 => 0
  | 1 => 1
  | n + 2 => plainFib n + plainFib (n + 1)

def fibCalls : Nat → Nat
  | 0 => 1
  | 1 => 1
  | n + 2 => 1 + fibCalls n + fibCalls (n + 1)

/-- The property key a numeric argument `n` is coerced to. -/
def fibKey (n : Nat) : String := jsToString (.num (n : Int))

theorem fibKey_eq_natStr (n : Nat) : fibKey n = natStr n := by
  have h : ¬ ((n : Int) < 0) := by omega
  simp [fibKey, jsToString, intStr, intChars, h, natStr]

/-- Cached `fib` values are numbers; reading one back. -/
def extractNum : JSVal → Int
  | .num i => i
  | _ => 0

structure FibRes where
  val : Int
  cache : Cache
  calls : Nat

/-- One call of the self-memoized `fib` (including its recursive inner
calls, which also go through the cache).  `calls` counts executions of
the original `fib` body.  The fuel-out branch is unreachable for
`fuel ≥ n`. -/
def memoFibAux (fuel n : Nat) (c : Cache) : FibRes :=
  let k := fibKey n
  if jsIn c k then ⟨extractNum (jsGetProp c k), c, 0⟩
  else
    match fuel, n with
    | _, 0 => ⟨0, setProp c k (.num 0), 1⟩
    | _, 1 => ⟨1, setProp c k (.num 1), 1⟩
    | 0, _ + 2 => ⟨0, c, 0⟩
    | fuel + 1, m + 2 =>
      let r1 := memoFibAux fuel m c
      let r2 := memoFibAux fuel (m + 1) r1.cache
      let v := r1.val + r2.val
      ⟨v, setProp r2.cache k (.num v), 1 + r1.calls + r2.calls⟩

/-- `fib = memoize(fib)`, then calling `fib(n)` with cache `c`. -/
def memoFib (n : Nat) (c : Cache) : FibRes := memoFibAux n n c

/-- Every `Object.prototype` key starts with a non-digit character. -/
theorem proto_heads_not_digit :
    objectProtoKeys.all (fun s =>
      match s.data.head? with
      | some c => decide (¬ isDigitCh c)
      | none => false) = true := by decide

/-- A decimal key such as `"10"` is never an inherited prototype key. -/
theorem natStr_not_proto (n : Nat) : objectProtoKeys.contains (natStr n) = false := by
  cases hc : objectProtoKeys.contains (natStr n)
  · rfl
  · exfalso
    have hmem : natStr n ∈ objectProtoKeys := List.mem_of_elem_eq_true hc
    have hall := List.all_eq_true.mp proto_heads_not_digit _ hmem
    obtain ⟨c, tl, hct⟩ : ∃ c tl, natDigits n = c :: tl := by
      cases h : natDigits n with
      | nil => exact absurd h (natDigits_ne_nil n)
      | cons c tl => exact ⟨c, tl, rfl⟩
    have hdig : isDigitCh c := natDigits_all_digits n c (by rw [hct]; exact List.mem_cons_self _ _)
    rw [show (natStr n).data = natDigits n from rfl, hct] at hall
    simp at hall
    exact hall hdig

/-! ### Cache lemmas -/

theorem getOwn_setProp (c : Cache) (k : String) (v : JSVal) (k' : String) :
    getOwn (setProp c k v) k' = if k = k' then some v else getOwn c k' := by
  induction c with
  | nil => by_cases h : k = k' <;> simp [setProp, getOwn, h]
  | cons p tl ih =>
    obtain ⟨k0, v0⟩ := p
    by_cases h0 : k0 = k
    · subst h0
      by_cases h : k0 = k' <;> simp [setProp, getOwn, h]
    · by_cases h : k0 = k'
      · subst h
        have : ¬ k = k0 := fun hh => h0 hh.symm
        simp [setProp, getOwn, h0, this]
      · simp [setProp, getOwn, h0, h, ih]

theorem jsGetProp_of_getOwn {c : Cache} {k : String} {v : JSVal}
    (h : getOwn c k = some v) : jsGetProp c k = v := by
  simp [jsGetProp, h]

theorem jsIn_of_getOwn {c : Cache} {k : String} {v : JSVal}
    (h : getOwn c k = some v) : jsIn c k = true := by
  simp [jsIn, h]

theorem getOwn_of_not_jsIn {c : Cache} {k : String}
    (h : jsIn c k = false) : getOwn c k = none := by
  simp only [jsIn, Bool.or_eq_false_iff] at h
  cases ho : getOwn c k with
  | none => rfl
  | some v => rw [ho] at h; simp at h

theorem cacheKeys_setProp_absent {c : Cache} {k : String} (v : JSVal)
    (h : getOwn c k = none) : cacheKeys (setProp c k v) = cacheKeys c ++ [k] := by
  induction c with
  | nil => simp [setProp, cacheKeys]
  | cons p tl ih =>
    obtain ⟨k0, v0⟩ := p
    simp only [getOwn] at h
    by_cases h0 : k0 = k
    · simp [h0] at h
    · simp only [h0, if_false] at h
      simp only [setProp, h0, if_false, cacheKeys, List.map_cons]
      have := ih h
      simp only [cacheKeys] at this
      rw [this]
      simp

deriving instance DecidableEq for StepRes

/-- `n => n * 2` on numbers; on any other argument the model returns a
tag value a doubling function never returns for a number. -/
def numDoubler : JSVal → Except String JSVal
  | .num i => .ok (.num (2 * i))
  | _ => .ok (.str "non-number")

/-- Claim C9: with a plain-object cache, the very first call of a
`memoize`- or `memoize3`-wrapped function on the argument `"toString"`
is treated as a cache hit: the `in` test finds the inherited
`Object.prototype` member, the call returns that inherited member (a
value `fn` never produced), `fn` is never invoked, and the cache stays
empty. -/
theorem memoize_inherited_protoKey_hit (fn : JSVal → Except String JSVal)
    (fn3 : List JSVal → Except String JSVal) :
    memoizeStep fn [] (.str "toString") = ⟨.ok (.protoMember "toString"), [], 0⟩ ∧
    memoize3Step fn3 [] [.str "toString"] = ⟨.ok (.protoMember "toString"), [], 0⟩ :=
  ⟨rfl, rfl⟩

/-- Claim C10: property keys are coerced to strings, so `1` and `"1"`
share a cache key; under `memoize3` the single string argument
`"[1,2]"` collides with the two-argument call `(1, 2)`; after
`memoized(1)`, the call `memoized("1")` is served the cached `fn(1)`
without `fn` ever being invoked on `"1"` (on which it would have
returned a different value). -/
theorem memoize_string_key_collisions :
    jsToString (.num 1) = jsToString (.str "1") ∧
    memoize3Key [.str "[1,2]"] = memoize3Key [.num 1, .num 2] ∧
    memoizeStep numDoubler [] (.num 1) = ⟨.ok (.num 2), [("1", .num 2)], 1⟩ ∧
    memoizeStep numDoubler [("1", .num 2)] (.str "1") = ⟨.ok (.num 2), [("1", .num 2)], 0⟩ ∧
    numDoubler (.str "1") = .ok (.str "non-number") :=
  ⟨by decide, by decide, by decide, by decide, rfl⟩

/-- Claim C1 fails as stated: with the fresh empty cache, the key
`"toString"` is *not* present in the cache (`getOwn` finds nothing),
yet the call does not invoke `fn`, stores nothing, and returns the
inherited `Object.prototype.toString` instead of `fn`'s result. -/
theorem memoize_contract_cex :
    getOwn [] "toString" = none ∧
    ¬ (memoizeStep (pureFn fun _ => .num 42) [] (.str "toString") =
        ⟨.ok (.num 42), [("toString", .num 42)], 1⟩) ∧
    memoizeStep (pureFn fun _ => .num 42) [] (.str "toString") =
      ⟨.ok (.protoMember "toString"), [], 0⟩ :=
  ⟨rfl, by decide, rfl⟩

/-- Claim C1 (amended): if the derived key is stored in the cache the
call returns the stored value without invoking `fn`; otherwise,
provided the key is not an inherited `Object.prototype` key, the call
invokes `fn`, stores the result under the key and returns it; and the
concrete scenario: for `fn = n => n * 2`, the run `5, 5, 6` returns
`10, 10, 12` with `fn` invoked on the first and third call only. -/
theorem memoize_hit_miss_contract (fn : JSVal → Except String JSVal)
    (c : Cache) (x : JSVal) :
    (∀ v, getOwn c (jsToString x) = some v → memoizeStep fn c x = ⟨.ok v, c, 0⟩) ∧
    (getOwn c (jsToString x) = none →
      objectProtoKeys.contains (jsToString x) = false →
      ∀ w, fn x = .ok w →
        memoizeStep fn c x = ⟨.ok w, setProp c (jsToString x) w, 1⟩) ∧
    runMemo numDoubler [.num 5, .num 5, .num 6] [] =
      ([(.ok (.num 10), 1), (.ok (.num 10), 0), (.ok (.num 12), 1)],
       [("5", .num 10), ("6", .num 12)]) := by
  refine ⟨fun v hv => ?_, fun hnone hproto w hw => ?_, by decide⟩
  · simp [memoizeStep, jsIn_of_getOwn hv, jsGetProp_of_getOwn hv]
  · have hmiss : jsIn c (jsToString x) = false := by
      unfold jsIn
      rw [hnone, hproto]
      rfl
    simp [memoizeStep, hmiss, hw]

/-- Concrete instantiation of `memoize_hit_miss_contract`: a stored key
`"5"` is served from the cache without a call; an absent non-prototype
key `"7"` invokes the function and caches the result. -/
theorem memoize_hit_miss_contract_witness :
    memoizeStep numDoubler [("5", .num 10)] (.num 5) = ⟨.ok (.num 10), [("5", .num 10)], 0⟩ ∧
    memoizeStep numDoubler [] (.num 7) = ⟨.ok (.num 14), [("7", .num 14)], 1⟩ := by
  constructor
  · exact (memoize_hit_miss_contract numDoubler [("5", .num 10)] (.num 5)).1 (.num 10) (by decide)
  · have h := (memoize_hit_miss_contract numDoubler [] (.num 7)).2.1 (by decide) (by decide)
      (.num 14) (by decide)
    simpa using h

/-- Claim C3: if `fn` throws on a cache miss, the error propagates
unchanged, no cache entry is created (the cache is returned as it was),
and the identical subsequent call misses again and invokes `fn` again —
for `memoize` and for `memoize3`. -/
theorem memoize_error_not_cached (fn : JSVal → Except String JSVal)
    (c : Cache) (x : JSVal) (e : String)
    (fn3 : List JSVal → Except String JSVal) (c3 : Cache) (args : List JSVal) (e3 : String)
    (hmiss : jsIn c (jsToString x) = false) (herr : fn x = .error e)
    (hmiss3 : jsIn c3 (memoize3Key args) = false) (herr3 : fn3 args = .error e3) :
    memoizeStep fn c x = ⟨.error e, c, 1⟩ ∧
    memoizeStep fn (memoizeStep fn c x).cache x = ⟨.error e, c, 1⟩ ∧
    memoize3Step fn3 c3 args = ⟨.error e3, c3, 1⟩ ∧
    memoize3Step fn3 (memoize3Step fn3 c3 args).cache args = ⟨.error e3, c3, 1⟩ := by
  have h1 : memoizeStep fn c x = ⟨.error e, c, 1⟩ := by
    simp [memoizeStep, hmiss, herr]
  have h3 : memoize3Step fn3 c3 args = ⟨.error e3, c3, 1⟩ := by
    simp [memoize3Step, hmiss3, herr3]
  exact ⟨h1, by rw [h1]; exact h1, h3, by rw [h3]; exact h3⟩

/-- The throwing scenario of the spec (`fn` that always throws) run
twice from the fresh cache: both calls throw `boom` and each invokes
`fn`. -/
theorem memoize_error_not_cached_witness :
    memoizeStep (fun _ => .error "boom") [] (.num 7) = ⟨.error "boom", [], 1⟩ ∧
    memoizeStep (fun _ => .error "boom")
        ((memoizeStep (fun _ => .error "boom") [] (.num 7)).cache) (.num 7) =
      ⟨.error "boom", [], 1⟩ ∧
    memoize3Step (fun _ => .error "boom") [] [.num 1, .num 2] = ⟨.error "boom", [], 1⟩ ∧
    memoize3Step (fun _ => .error "boom")
        ((memoize3Step (fun _ => .error "boom") [] [.num 1, .num 2]).cache) [.num 1, .num 2] =
      ⟨.error "boom", [], 1⟩ := by
  exact memoize_error_not_cached (fun _ => .error "boom") [] (.num 7) "boom"
    (fun _ => .error "boom") [] [.num 1, .num 2] "boom"
    (by decide) rfl (by decide) rfl

/-- Claim C7: `memoize2` returns `fn` itself whenever the declared
arity `fn.length` is not `1` — every call then invokes `fn` directly
with no cache — and returns the caching closure over a fresh empty
cache (one step of which is exactly `memoizeStep`) when the arity is
`1`. -/
theorem memoize2_arity_policy (fn : JSFun) :
    (fn.arity ≠ 1 → memoize2 fn = .bypass fn ∧
      ∀ x, callMemo2 (.bypass fn) x = (⟨fn.impl [x], [], 1⟩, .bypass fn)) ∧
    (fn.arity = 1 → memoize2 fn = .wrapped fn [] ∧
      ∀ c x, callMemo2 (.wrapped fn c) x =
        (memoizeStep (fun v => fn.impl [v]) c x,
         .wrapped fn (memoizeStep (fun v => fn.impl [v]) c x).cache)) := by
  constructor
  · intro h
    exact ⟨by simp [memoize2, h], fun x => rfl⟩
  · intro h
    exact ⟨by simp [memoize2, h], fun c x => rfl⟩

/-- A two-argument function: `memoize2` bypasses it. -/
def addPair : JSFun :=
  ⟨2, fun args => match args with
      | [.num a, .num b] => .ok (.num (a + b))
      | _ => .ok .undefined⟩

/-- A unary function: `memoize2` wraps it. -/
def double1 : JSFun :=
  ⟨1, fun args => match args with
      | [.num a] => .ok (.num (2 * a))
      | _ => .ok .undefined⟩

/-- Concrete instantiation of `memoize2_arity_policy` at a binary and a
unary function. -/
theorem memoize2_arity_policy_witness :
    memoize2 addPair = .bypass addPair ∧
    callMemo2 (.bypass addPair) (.num 3) = (⟨addPair.impl [.num 3], [], 1⟩, .bypass addPair) ∧
    memoize2 double1 = .wrapped double1 [] ∧
    callMemo2 (.wrapped double1 []) (.num 3) =
      (memoizeStep (fun v => double1.impl [v]) [] (.num 3),
       .wrapped double1 (memoizeStep (fun v => double1.impl [v]) [] (.num 3)).cache) := by
  refine ⟨?_, ?_, ?_, ?_⟩
  · exact ((memoize2_arity_policy addPair).1 (by decide)).1
  · exact ((memoize2_arity_policy addPair).1 (by decide)).2 (.num 3)
  · exact ((memoize2_arity_policy double1).2 rfl).1
  · exact ((memoize2_arity_policy double1).2 rfl).2 [] (.num 3)

theorem runPair_frame : ∀ (sched : List (Bool × JSVal)) (m1 m2 : Memoizer),
    (runPair sched (m1, m2)).2.1 =
      (runInst ((sched.filter fun p => !p.1).map Prod.snd) m1).2 ∧
    (runPair sched (m1, m2)).2.2 =
      (runInst ((sched.filter fun p => p.1).map Prod.snd) m2).2 ∧
    ((runPair sched (m1, m2)).1.filter fun o => !o.1).map Prod.snd =
      (runInst ((sched.filter fun p => !p.1).map Prod.snd) m1).1 ∧
    ((runPair sched (m1, m2)).1.filter fun o => o.1).map Prod.snd =
      (runInst ((sched.filter fun p => p.1).map Prod.snd) m2).1
  | [], m1, m2 => ⟨rfl, rfl, rfl, rfl⟩
  | (which, x) :: rest, m1, m2 => by
    cases which
    · have ih := runPair_frame rest (callInst m1 x).2 m2
      simp only [runPair, runInst, List.filter, List.map, Bool.not_false, Bool.not_true]
      exact ⟨ih.1, ih.2.1, congrArg₂ (· :: ·) rfl ih.2.2.1, ih.2.2.2⟩
    · have ih := runPair_frame rest m1 (callInst m2 x).2
      simp only [runPair, runInst, List.filter, List.map, Bool.not_false, Bool.not_true]
      exact ⟨ih.1, ih.2.1, ih.2.2.1, congrArg₂ (· :: ·) rfl ih.2.2.2⟩

/-- Claim C8: two instances created by `memoize` from the same `fn`
start with their own empty caches, and in any interleaved schedule each
instance's final cache and full observable behaviour (results and
`fn`-invocation counts) are exactly those of running its own calls
alone — populating one instance never affects the other. -/
theorem memoize_cache_isolation (f : JSVal → Except String JSVal)
    (sched : List (Bool × JSVal)) :
    (mkMemoizer f).cache = [] ∧
    ((runPair sched (mkMemoizer f, mkMemoizer f)).2.1 =
        (runInst ((sched.filter fun p => !p.1).map Prod.snd) (mkMemoizer f)).2 ∧
      (runPair sched (mkMemoizer f, mkMemoizer f)).2.2 =
        (runInst ((sched.filter fun p => p.1).map Prod.snd) (mkMemoizer f)).2) ∧
    (((runPair sched (mkMemoizer f, mkMemoizer f)).1.filter fun o => !o.1).map Prod.snd =
        (runInst ((sched.filter fun p => !p.1).map Prod.snd) (mkMemoizer f)).1 ∧
      ((runPair sched (mkMemoizer f, mkMemoizer f)).1.filter fun o => o.1).map Prod.snd =
        (runInst ((sched.filter fun p => p.1).map Prod.snd) (mkMemoizer f)).1) := by
  have h := runPair_frame sched (mkMemoizer f) (mkMemoizer f)
  exact ⟨rfl, ⟨h.1, h.2.1⟩, ⟨h.2.2.1, h.2.2.2⟩⟩

/-- Lift a non-throwing variadic JS function. -/
def pureFn3 (f : List JSVal → JSVal) : List JSVal → Except String JSVal :=
  fun args => .ok (f args)

theorem step_preserves_getOwn (fn : JSVal → Except String JSVal) (c : Cache) (x : JSVal)
    {k : String} {v : JSVal} (h : getOwn c k = some v) :
    getOwn (memoizeStep fn c x).cache k = some v := by
  unfold memoizeStep
  cases hin : jsIn c (jsToString x)
  · have hnone := getOwn_of_not_jsIn hin
    cases hf : fn x with
    | ok w =>
      simp only [hin, Bool.false_eq_true, if_false, hf]
      rw [getOwn_setProp]
      have hne : ¬ jsToString x = k := fun he => by rw [he, h] at hnone; cases hnone
      simp [hne, h]
    | error e => simp [hin, hf, h]
  · simp [hin, h]

theorem step_jsIn_mono (fn : JSVal → Except String JSVal) (c : Cache) (x : JSVal)
    {k : String} (h : jsIn c k = true) :
    jsIn (memoizeStep fn c x).cache k = true := by
  simp only [jsIn, Bool.or_eq_true] at h ⊢
  rcases h with h | h
  · obtain ⟨v, hv⟩ := Option.isSome_iff_exists.mp h
    exact Or.inl (Option.isSome_iff_exists.mpr ⟨v, step_preserves_getOwn fn c x hv⟩)
  · exact Or.inr h

theorem step_stores_key (f : JSVal → JSVal) (c : Cache) (x : JSVal)
    (h : jsIn c (jsToString x) = false) :
    getOwn (memoizeStep (pureFn f) c x).cache (jsToString x) = some (f x) := by
  simp only [memoizeStep, h, Bool.false_eq_true, if_false, pureFn]
  rw [getOwn_setProp]
  simp

theorem missCountOn_zero_of_jsIn (fn : JSVal → Except String JSVal) (k : String) :
    ∀ (xs : List JSVal) (c : Cache), jsIn c k = true → missCountOn fn k xs c = 0
  | [], _, _ => rfl
  | x :: xs, c, h => by
    unfold missCountOn
    have hrec := missCountOn_zero_of_jsIn fn k xs (memoizeStep fn c x).cache
      (step_jsIn_mono fn c x h)
    by_cases hk : jsToString x = k
    · have hcalls : (memoizeStep fn c x).calls = 0 := by
        unfold memoizeStep
        rw [hk]
        simp [h]
      simp [hk, hcalls, hrec]
    · simp [hk, hrec]

theorem missCountOn_le_one (f : JSVal → JSVal) (k : String) :
    ∀ (xs : List JSVal) (c : Cache), missCountOn (pureFn f) k xs c ≤ 1
  | [], _ => by simp [missCountOn]
  | x :: xs, c => by
    unfold missCountOn
    by_cases hk : jsToString x = k
    · cases hin : jsIn c k
      · have hmiss : jsIn c (jsToString x) = false := by rw [hk]; exact hin
        have hcalls : (memoizeStep (pureFn f) c x).calls = 1 := by
          simp [memoizeStep, hmiss, pureFn]
        have hstored := step_stores_key f c x hmiss
        rw [hk] at hstored
        have hrec : missCountOn (pureFn f) k xs (memoizeStep (pureFn f) c x).cache = 0 :=
          missCountOn_zero_of_jsIn _ k xs _ (jsIn_of_getOwn hstored)
        simp [hk, hcalls, hrec]
      · have hcalls : (memoizeStep (pureFn f) c x).calls = 0 := by
          unfold memoizeStep
          rw [hk]
          simp [hin]
        have hrec : missCountOn (pureFn f) k xs (memoizeStep (pureFn f) c x).cache = 0 :=
          missCountOn_zero_of_jsIn _ k xs _ (step_jsIn_mono _ c x hin)
        simp [hk, hcalls, hrec]
    · simp only [hk, if_false, Nat.zero_add]
      exact missCountOn_le_one f k xs (memoizeStep (pureFn f) c x).cache

theorem memoize_idempotent_pair (f : JSVal → JSVal) (c : Cache) (x : JSVal) :
    (memoizeStep (pureFn f) c x).ret =
      (memoizeStep (pureFn f) (memoizeStep (pureFn f) c x).cache x).ret ∧
    (memoizeStep (pureFn f) c x).calls +
      (memoizeStep (pureFn f) (memoizeStep (pureFn f) c x).cache x).calls ≤ 1 := by
  cases hin : jsIn c (jsToString x)
  · have h1 : memoizeStep (pureFn f) c x =
        ⟨.ok (f x), setProp c (jsToString x) (f x), 1⟩ := by
      simp [memoizeStep, hin, pureFn]
    have hstored : getOwn (setProp c (jsToString x) (f x)) (jsToString x) = some (f x) := by
      rw [getOwn_setProp]; simp
    have h2 : memoizeStep (pureFn f) (setProp c (jsToString x) (f x)) x =
        ⟨.ok (f x), setProp c (jsToString x) (f x), 0⟩ := by
      simp [memoizeStep, jsIn_of_getOwn hstored, jsGetProp_of_getOwn hstored]
    refine ⟨?_, ?_⟩ <;> simp [h1, h2]
  · have h1 : memoizeStep (pureFn f) c x = ⟨.ok (jsGetProp c (jsToString x)), c, 0⟩ := by
      simp [memoizeStep, hin]
    refine ⟨?_, ?_⟩ <;> simp [h1]

theorem memoize3_idempotent_pair (f3 : List JSVal → JSVal) (c : Cache) (args : List JSVal) :
    (memoize3Step (pureFn3 f3) c args).ret =
      (memoize3Step (pureFn3 f3) (memoize3Step (pureFn3 f3) c args).cache args).ret ∧
    (memoize3Step (pureFn3 f3) c args).calls +
      (memoize3Step (pureFn3 f3) (memoize3Step (pureFn3 f3) c args).cache args).calls ≤ 1 := by
  cases hin : jsIn c (memoize3Key args)
  · have h1 : memoize3Step (pureFn3 f3) c args =
        ⟨.ok (f3 args), setProp c (memoize3Key args) (f3 args), 1⟩ := by
      simp [memoize3Step, hin, pureFn3]
    have hstored : getOwn (setProp c (memoize3Key args) (f3 args)) (memoize3Key args) =
        some (f3 args) := by
      rw [getOwn_setProp]; simp
    have h2 : memoize3Step (pureFn3 f3) (setProp c (memoize3Key args) (f3 args)) args =
        ⟨.ok (f3 args), setProp c (memoize3Key args) (f3 args), 0⟩ := by
      simp [memoize3Step, jsIn_of_getOwn hstored, jsGetProp_of_getOwn hstored]
    refine ⟨?_, ?_⟩ <;> simp [h1, h2]
  · have h1 : memoize3Step (pureFn3 f3) c args =
        ⟨.ok (jsGetProp c (memoize3Key args)), c, 0⟩ := by
      simp [memoize3Step, hin]
    refine ⟨?_, ?_⟩ <;> simp [h1]

/-- A pure unary function used to instantiate the pure-memoization
theorems. -/
def constSeven : JSVal → JSVal := fun _ => .num 7

/-- Claim C2: for a memoizer wrapping a pure function, (i) a cached
entry, once stored, keeps its value across any further call; (ii) over
any run the wrapped function is invoked at most once for any given
cache key; (iii) two successive calls with the same argument return
equal results with the function invoked at most once across both calls
— and likewise for `memoize3` on a fixed argument sequence. -/
theorem memoize_at_most_once_per_key (f : JSVal → JSVal) (k : String) (v : JSVal)
    (xs : List JSVal) (c : Cache) (x : JSVal)
    (f3 : List JSVal → JSVal) (c3 : Cache) (args : List JSVal)
    (hstored : getOwn c k = some v) :
    getOwn (memoizeStep (pureFn f) c x).cache k = some v ∧
    missCountOn (pureFn f) k xs c ≤ 1 ∧
    ((memoizeStep (pureFn f) c x).ret =
        (memoizeStep (pureFn f) (memoizeStep (pureFn f) c x).cache x).ret ∧
      (memoizeStep (pureFn f) c x).calls +
        (memoizeStep (pureFn f) (memoizeStep (pureFn f) c x).cache x).calls ≤ 1) ∧
    ((memoize3Step (pureFn3 f3) c3 args).ret =
        (memoize3Step (pureFn3 f3) (memoize3Step (pureFn3 f3) c3 args).cache args).ret ∧
      (memoize3Step (pureFn3 f3) c3 args).calls +
        (memoize3Step (pureFn3 f3) (memoize3Step (pureFn3 f3) c3 args).cache args).calls ≤ 1) :=
  ⟨step_preserves_getOwn (pureFn f) c x hstored,
   missCountOn_le_one f k xs c,
   memoize_idempotent_pair f c x,
   memoize3_idempotent_pair f3 c3 args⟩

/-- Concrete instantiation of `memoize_at_most_once_per_key`: starting
from a cache holding `"5" ↦ 10`, a run over `5, 6` invokes the function
at most once on key `"5"`, the entry survives, and double calls agree. -/
theorem memoize_at_most_once_per_key_witness :
    getOwn (memoizeStep (pureFn constSeven) [("5", .num 10)] (.num 6)).cache "5" =
      some (.num 10) ∧
    missCountOn (pureFn constSeven) "5" [.num 5, .num 6] [("5", .num 10)] ≤ 1 ∧
    ((memoizeStep (pureFn constSeven) [("5", .num 10)] (.num 6)).ret =
        (memoizeStep (pureFn constSeven)
          (memoizeStep (pureFn constSeven) [("5", .num 10)] (.num 6)).cache (.num 6)).ret ∧
      (memoizeStep (pureFn constSeven) [("5", .num 10)] (.num 6)).calls +
        (memoizeStep (pureFn constSeven)
          (memoizeStep (pureFn constSeven) [("5", .num 10)] (.num 6)).cache (.num 6)).calls ≤ 1) ∧
    ((memoize3Step (pureFn3 fun _ => .null) [] [.num 1, .num 2]).ret =
        (memoize3Step (pureFn3 fun _ => .null)
          (memoize3Step (pureFn3 fun _ => .null) [] [.num 1, .num 2]).cache [.num 1, .num 2]).ret ∧
      (memoize3Step (pureFn3 fun _ => .null) [] [.num 1, .num 2]).calls +
        (memoize3Step (pureFn3 fun _ => .null)
          (memoize3Step (pureFn3 fun _ => .null) [] [.num 1, .num 2]).cache
          [.num 1, .num 2]).calls ≤ 1) :=
  memoize_at_most_once_per_key constSeven "5" (.num 10) [.num 5, .num 6]
    [("5", .num 10)] (.num 6) (fun _ => .null) [] [.num 1, .num 2] (by decide)

/-! ### Correctness and linear cost of the self-memoized `fib` -/

/-- Invariant of the memoized `fib`'s cache: every entry is a decimal
key holding the corresponding Fibonacci number, and keys are unique. -/
structure FibInv (c : Cache) : Prop where
  vals : ∀ m w, getOwn c (natStr m) = some w → w = .num (plainFib m)
  shape : ∀ s ∈ cacheKeys c, ∃ m, s = natStr m
  nodup : (cacheKeys c).Nodup

theorem mem_cacheKeys_of_getOwn : ∀ {c : Cache} {s : String} {w : JSVal},
    getOwn c s = some w → s ∈ cacheKeys c
  | [], _, _, h => by cases h
  | (k, v) :: tl, s, w, h => by
    by_cases hk : k = s
    · simp [cacheKeys, hk]
    · simp only [getOwn, hk, if_false] at h
      simp [cacheKeys]
      exact Or.inr (by simpa [cacheKeys] using mem_cacheKeys_of_getOwn h)

theorem getOwn_isSome_of_mem_cacheKeys : ∀ {c : Cache} {s : String},
    s ∈ cacheKeys c → ∃ w, getOwn c s = some w
  | [], _, h => by cases h
  | (k, v) :: tl, s, h => by
    by_cases hk : k = s
    · exact ⟨v, by simp [getOwn, hk]⟩
    · simp only [cacheKeys, List.map_cons, List.mem_cons] at h
      rcases h with h | h
      · exact absurd h.symm hk
      · obtain ⟨w, hw⟩ := @getOwn_isSome_of_mem_cacheKeys tl _ h
        exact ⟨w, by simp [getOwn, hk, hw]⟩

theorem fibInv_hit {c : Cache} {n : Nat} (inv : FibInv c)
    (h : jsIn c (fibKey n) = true) :
    getOwn c (natStr n) = some (.num (plainFib n)) := by
  rw [fibKey_eq_natStr] at h
  simp only [jsIn, Bool.or_eq_true] at h
  rcases h with h | h
  · obtain ⟨w, hw⟩ := Option.isSome_iff_exists.mp h
    rw [hw, inv.vals n w hw]
  · rw [natStr_not_proto n] at h
    cases h

theorem fibInv_store {c : Cache} {n : Nat} (inv : FibInv c)
    (h : getOwn c (natStr n) = none) :
    FibInv (setProp c (natStr n) (.num (plainFib n))) := by
  refine ⟨fun m w hw => ?_, fun s hs => ?_, ?_⟩
  · rw [getOwn_setProp] at hw
    by_cases hm : natStr n = natStr m
    · have hnm : n = m := natStr_inj hm
      subst hnm
      rw [if_pos rfl] at hw
      exact ((Option.some.injEq _ _).mp hw).symm
    · rw [if_neg hm] at hw
      exact inv.vals m w hw
  · rw [cacheKeys_setProp_absent _ h] at hs
    rcases List.mem_append.mp hs with hs | hs
    · exact inv.shape s hs
    · exact ⟨n, List.mem_singleton.mp hs⟩
  · rw [cacheKeys_setProp_absent _ h]
    refine List.Nodup.append inv.nodup (List.nodup_singleton _) ?_
    intro s hs hs'
    rw [List.mem_singleton.mp hs'] at hs
    obtain ⟨w, hw⟩ := getOwn_isSome_of_mem_cacheKeys hs
    rw [hw] at h
    cases h

theorem memoFibAux_hit {fuel n : Nat} {c : Cache} (h : jsIn c (fibKey n) = true) :
    memoFibAux fuel n c = ⟨extractNum (jsGetProp c (fibKey n)), c, 0⟩ := by
  unfold memoFibAux
  simp [h]

theorem memoFibAux_miss0 {fuel : Nat} {c : Cache} (h : jsIn c (fibKey 0) = false) :
    memoFibAux fuel 0 c = ⟨0, setProp c (fibKey 0) (.num 0), 1⟩ := by
  unfold memoFibAux
  simp [h]

theorem memoFibAux_miss1 {fuel : Nat} {c : Cache} (h : jsIn c (fibKey 1) = false) :
    memoFibAux fuel 1 c = ⟨1, setProp c (fibKey 1) (.num 1), 1⟩ := by
  unfold memoFibAux
  simp [h]

theorem memoFibAux_miss2 {fuel m : Nat} {c : Cache} (h : jsIn c (fibKey (m + 2)) = false) :
    memoFibAux (fuel + 1) (m + 2) c =
      ⟨(memoFibAux fuel m c).val + (memoFibAux fuel (m + 1) (memoFibAux fuel m c).cache).val,
       setProp (memoFibAux fuel (m + 1) (memoFibAux fuel m c).cache).cache (fibKey (m + 2))
         (.num ((memoFibAux fuel m c).val +
                (memoFibAux fuel (m + 1) (memoFibAux fuel m c).cache).val)),
       1 + (memoFibAux fuel m c).calls +
         (memoFibAux fuel (m + 1) (memoFibAux fuel m c).cache).calls⟩ := by
  conv_lhs => unfold memoFibAux
  simp [h]

theorem memoFibAux_spec_hit {fuel n : Nat} {c : Cache} (inv : FibInv c)
    (hin : jsIn c (fibKey n) = true) :
    (memoFibAux fuel n c).val = plainFib n ∧
    FibInv (memoFibAux fuel n c).cache ∧
    (∀ s w, getOwn c s = some w → getOwn (memoFibAux fuel n c).cache s = some w) ∧
    getOwn (memoFibAux fuel n c).cache (natStr n) = some (.num (plainFib n)) ∧
    (∀ s ∈ cacheKeys (memoFibAux fuel n c).cache,
      s ∈ cacheKeys c ∨ ∃ m, m ≤ n ∧ s = natStr m) ∧
    (memoFibAux fuel n c).calls + (cacheKeys c).length =
      (cacheKeys (memoFibAux fuel n c).cache).length := by
  have hg := fibInv_hit inv hin
  have hres : memoFibAux fuel n c = ⟨plainFib n, c, 0⟩ := by
    rw [memoFibAux_hit hin]
    have hv : jsGetProp c (fibKey n) = .num (plainFib n) := by
      rw [fibKey_eq_natStr]; exact jsGetProp_of_getOwn hg
    rw [hv]; rfl
  rw [hres]
  exact ⟨rfl, inv, fun s w h => h, hg, fun s hs => Or.inl hs, by simp⟩

theorem memoFibAux_spec_storeBase {fuel : Nat} {c : Cache} {n : Nat}
    (hn : n = 0 ∨ n = 1) (inv : FibInv c) (hin : jsIn c (fibKey n) = false) :
    (memoFibAux fuel n c).val = plainFib n ∧
    FibInv (memoFibAux fuel n c).cache ∧
    (∀ s w, getOwn c s = some w → getOwn (memoFibAux fuel n c).cache s = some w) ∧
    getOwn (memoFibAux fuel n c).cache (natStr n) = some (.num (plainFib n)) ∧
    (∀ s ∈ cacheKeys (memoFibAux fuel n c).cache,
      s ∈ cacheKeys c ∨ ∃ m, m ≤ n ∧ s = natStr m) ∧
    (memoFibAux fuel n c).calls + (cacheKeys c).length =
      (cacheKeys (memoFibAux fuel n c).cache).length := by
  have hnone : getOwn c (natStr n) = none := by
    have h := getOwn_of_not_jsIn hin
    rwa [fibKey_eq_natStr] at h
  have hres : memoFibAux fuel n c =
      ⟨plainFib n, setProp c (natStr n) (.num (plainFib n)), 1⟩ := by
    rcases hn with rfl | rfl
    · rw [memoFibAux_miss0 hin, fibKey_eq_natStr]; rfl
    · rw [memoFibAux_miss1 hin, fibKey_eq_natStr]; rfl
  rw [hres]
  refine ⟨rfl, fibInv_store inv hnone, ?_, ?_, ?_, ?_⟩
  · intro s w h
    rw [getOwn_setProp]
    by_cases hk : natStr n = s
    · rw [← hk, hnone] at h; cases h
    · rw [if_neg hk]; exact h
  · rw [getOwn_setProp, if_pos rfl]
  · intro s hs
    rw [cacheKeys_setProp_absent _ hnone] at hs
    rcases List.mem_append.mp hs with hs | hs
    · exact Or.inl hs
    · exact Or.inr ⟨n, Nat.le_refl n, List.mem_singleton.mp hs⟩
  · rw [cacheKeys_setProp_absent _ hnone]
    simp [Nat.add_comm]

theorem memoFibAux_spec (fuel : Nat) : ∀ (n : Nat) (c : Cache), n ≤ fuel → FibInv c →
    (memoFibAux fuel n c).val = plainFib n ∧
    FibInv (memoFibAux fuel n c).cache ∧
    (∀ s w, getOwn c s = some w → getOwn (memoFibAux fuel n c).cache s = some w) ∧
    getOwn (memoFibAux fuel n c).cache (natStr n) = some (.num (plainFib n)) ∧
    (∀ s ∈ cacheKeys (memoFibAux fuel n c).cache,
      s ∈ cacheKeys c ∨ ∃ m, m ≤ n ∧ s = natStr m) ∧
    (memoFibAux fuel n c).calls + (cacheKeys c).length =
      (cacheKeys (memoFibAux fuel n c).cache).length := by
  induction fuel with
  | zero =>
    intro n c hn inv
    have hn0 : n = 0 := by omega
    subst hn0
    by_cases hin : jsIn c (fibKey 0) = true
    · exact memoFibAux_spec_hit inv hin
    · exact memoFibAux_spec_storeBase (Or.inl rfl) inv (by simpa using hin)
  | succ fuel ih =>
    intro n c hn inv
    rcases n with _ | n
    · by_cases hin : jsIn c (fibKey 0) = true
      · exact memoFibAux_spec_hit inv hin
      · exact memoFibAux_spec_storeBase (Or.inl rfl) inv (by simpa using hin)
    rcases n with _ | m
    · by_cases hin : jsIn c (fibKey 1) = true
      · exact memoFibAux_spec_hit inv hin
      · exact memoFibAux_spec_storeBase (Or.inr rfl) inv (by simpa using hin)
    by_cases hin : jsIn c (fibKey (m + 2)) = true
    · exact memoFibAux_spec_hit inv hin
    have hin' : jsIn c (fibKey (m + 2)) = false := by simpa using hin
    obtain ⟨v1, i1, p1, g1, e1, l1⟩ := ih m c (by omega) inv
    obtain ⟨v2, i2, p2, g2, e2, l2⟩ :=
      ih (m + 1) (memoFibAux fuel m c).cache (by omega) i1
    have hnone0 : getOwn c (natStr (m + 2)) = none := by
      have h := getOwn_of_not_jsIn hin'
      rwa [fibKey_eq_natStr] at h
    have hnone2 : getOwn (memoFibAux fuel (m + 1) (memoFibAux fuel m c).cache).cache
        (natStr (m + 2)) = none := by
      cases hgo : getOwn (memoFibAux fuel (m + 1) (memoFibAux fuel m c).cache).cache
          (natStr (m + 2)) with
      | none => rfl
      | some w =>
        exfalso
        have hmem := mem_cacheKeys_of_getOwn hgo
        rcases e2 _ hmem with hmem1 | ⟨j, hj, hjs⟩
        · rcases e1 _ hmem1 with hmem0 | ⟨j, hj, hjs⟩
          · obtain ⟨w', hw'⟩ := getOwn_isSome_of_mem_cacheKeys hmem0
            rw [hw'] at hnone0; cases hnone0
          · have : m + 2 = j := natStr_inj hjs
            omega
        · have : m + 2 = j := natStr_inj hjs
          omega
    have hval : (memoFibAux fuel m c).val +
        (memoFibAux fuel (m + 1) (memoFibAux fuel m c).cache).val = plainFib (m + 2) := by
      rw [v1, v2]; rfl
    have hres := @memoFibAux_miss2 fuel m c hin'
    rw [hres, hval, fibKey_eq_natStr]
    refine ⟨rfl, ?_, ?_, ?_, ?_, ?_⟩
    · exact fibInv_store i2 hnone2
    · intro s w h
      rw [getOwn_setProp]
      by_cases hk : natStr (m + 2) = s
      · rw [← hk, hnone0] at h; cases h
      · rw [if_neg hk]; exact p2 s w (p1 s w h)
    · rw [getOwn_setProp, if_pos rfl]
    · intro s hs
      rw [cacheKeys_setProp_absent _ hnone2] at hs
      rcases List.mem_append.mp hs with hs | hs
      · rcases e2 _ hs with hs1 | ⟨j, hj, hjs⟩
        · rcases e1 _ hs1 with hs0 | ⟨j, hj, hjs⟩
          · exact Or.inl hs0
          · exact Or.inr ⟨j, by omega, hjs⟩
        · exact Or.inr ⟨j, by omega, hjs⟩
      · exact Or.inr ⟨m + 2, Nat.le_refl _, List.mem_singleton.mp hs⟩
    · rw [cacheKeys_setProp_absent _ hnone2]
      simp only [List.length_append, List.length_singleton]
      omega

theorem keys_length_le_of_natStr {l : List String} (hnd : l.Nodup) {n : Nat}
    (h : ∀ s ∈ l, ∃ m, m ≤ n ∧ s = natStr m) : l.length ≤ n + 1 := by
  have hsub : l ⊆ (List.range (n + 1)).map natStr := by
    intro s hs
    obtain ⟨m, hm, rfl⟩ := h s hs
    exact List.mem_map.mpr ⟨m, List.mem_range.mpr (by omega), rfl⟩
  calc l.length = l.toFinset.card := (List.toFinset_card_of_nodup hnd).symm
    _ ≤ ((List.range (n + 1)).map natStr).toFinset.card := by
        refine Finset.card_le_card ?_
        intro s hs
        rw [List.mem_toFinset] at hs ⊢
        exact hsub hs
    _ ≤ ((List.range (n + 1)).map natStr).length := List.toFinset_card_le _
    _ = n + 1 := by simp

theorem fibInv_empty : FibInv [] :=
  ⟨(fun _ _ h => by cases h), (fun _ hs => by cases hs), List.nodup_nil⟩

/-- The self-memoized `fib` computes `fib n` from the fresh cache with
a linear number of `fib`-body executions. -/
theorem memoFib_correct_linear (n : Nat) :
    (memoFib n []).val = plainFib n ∧ (memoFib n []).calls ≤ n + 1 := by
  obtain ⟨v, i, _, _, e, l⟩ := memoFibAux_spec n n [] (Nat.le_refl n) fibInv_empty
  refine ⟨v, ?_⟩
  have hlen := keys_length_le_of_natStr i.nodup (fun s hs => by
    rcases e s hs with hs | hs
    · cases hs
    · exact hs)
  simp only [show cacheKeys ([] : Cache) = [] from rfl, List.length_nil] at l
  unfold memoFib
  omega

theorem fibCalls_mono (n : Nat) : fibCalls n ≤ fibCalls (n + 1) := by
  cases n with
  | zero => simp [fibCalls]
  | succ m =>
    show fibCalls (m + 1) ≤ fibCalls (m + 2)
    rw [show fibCalls (m + 2) = 1 + fibCalls m + fibCalls (m + 1) from rfl]
    omega

/-- Unmemoized, the number of `fib`-body executions grows
exponentially. -/
theorem fibCalls_exponential (k : Nat) : 2 ^ k ≤ fibCalls (2 * k) := by
  induction k with
  | zero => simp [fibCalls]
  | succ k ih =>
    have h2 : 2 * (k + 1) = 2 * k + 2 := by omega
    rw [h2, show fibCalls (2 * k + 2) = 1 + fibCalls (2 * k) + fibCalls (2 * k + 1) from rfl]
    have := fibCalls_mono (2 * k)
    have hp : 2 ^ (k + 1) = 2 ^ k + 2 ^ k := by rw [Nat.pow_succ]; omega
    omega

theorem natStr_notMem_proto (n : Nat) : natStr n ∉ objectProtoKeys := by
  intro h
  have h2 : objectProtoKeys.contains (natStr n) = true := List.elem_eq_true_of_mem h
  rw [natStr_not_proto n] at h2
  cases h2

/-- Claim C4: wrapping only the outer call site caches only the outer
key — the first call on `n` leaves exactly the one entry for `n`'s key
and a later call on any other argument `m` (even one `fib` just
computed internally) invokes the wrapped function again — whereas with
the self-referential rebinding `fib = memoize(fib)` the number of
`fib`-body executions for `memoFib n` on a fresh cache is at most
`n + 1` (linear, versus the exponential `2 ^ k ≤ fibCalls (2 * k)` of
the unmemoized recursion), and `memoFib 10` returns `55`. -/
theorem fib_outer_vs_rebound (n m : Nat) (fn : JSVal → Except String JSVal)
    (hfn : fn (.num (n : Int)) = .ok (.num (plainFib n)))
    (hfm : fn (.num (m : Int)) = .ok (.num (plainFib m)))
    (hne : m ≠ n) :
    memoizeStep fn [] (.num (n : Int)) =
      ⟨.ok (.num (plainFib n)), [(natStr n, .num (plainFib n))], 1⟩ ∧
    (memoizeStep fn [(natStr n, .num (plainFib n))] (.num (m : Int))).calls = 1 ∧
    (memoFib n []).val = plainFib n ∧
    (memoFib n []).calls ≤ n + 1 ∧
    2 ^ n ≤ fibCalls (2 * n) ∧
    (memoFib 10 []).val = 55 := by
  have hkeyn : jsToString (.num (n : Int)) = natStr n := fibKey_eq_natStr n
  have hkeym : jsToString (.num (m : Int)) = natStr m := fibKey_eq_natStr m
  refine ⟨?_, ?_, (memoFib_correct_linear n).1, (memoFib_correct_linear n).2,
    fibCalls_exponential n, by decide⟩
  · have hmiss : jsIn [] (natStr n) = false := by
      simp [jsIn, getOwn, natStr_notMem_proto n]
    simp [memoizeStep, hkeyn, hmiss, hfn, setProp]
  · have hgo : getOwn [(natStr n, .num (plainFib n))] (natStr m) = none := by
      simp only [getOwn]
      rw [if_neg fun h => hne (natStr_inj h).symm]
    have hmiss2 : jsIn [(natStr n, .num (plainFib n))] (natStr m) = false := by
      simp [jsIn, hgo, natStr_notMem_proto m]
    simp [memoizeStep, hkeym, hmiss2, hfm]

/-- The wrapped outer call `n => fib(n)`, modelled on numbers (JS `fib`
does not terminate on other inputs, which the examples never use). -/
def fibWrapFn : JSVal → Except String JSVal
  | .num i => .ok (.num (plainFib i.toNat))
  | _ => .ok .null

/-- Concrete instantiation of `fib_outer_vs_rebound` at `n = 3`,
`m = 2`. -/
theorem fib_outer_vs_rebound_witness :
    memoizeStep fibWrapFn [] (.num (3 : Int)) =
      ⟨.ok (.num (plainFib 3)), [(natStr 3, .num (plainFib 3))], 1⟩ ∧
    (memoizeStep fibWrapFn [(natStr 3, .num (plainFib 3))] (.num (2 : Int))).calls = 1 ∧
    (memoFib 3 []).val = plainFib 3 ∧
    (memoFib 3 []).calls ≤ 3 + 1 ∧
    2 ^ 3 ≤ fibCalls (2 * 3) ∧
    (memoFib 10 []).val = 55 :=
  fib_outer_vs_rebound 3 2 fibWrapFn rfl rfl (by decide)

/-- Distinguishes a function-valued argument from a `null` argument. -/
def nullProbe : List JSVal → Except String JSVal
  | [.fnVal _] => .ok (.str "saw function")
  | _ => .ok (.str "saw other")

/-- Claim C6 fails as stated: a function-valued argument raises no
error at all under the structural strategy — `JSON.stringify` encodes
it as `null` inside the `args` array, so `[f]` and `[null]` derive the
*same* key `"[null]"`, and after `memoized(f)` the call
`memoized(null)` is silently served the result cached for `f` (no
error, `fn` not invoked) even though `fn` would distinguish them. -/
theorem memoize4_silent_collision_cex :
    stringifyArgs [.fnVal 0] = stringifyArgs [.null] ∧
    JSVal.fnVal 0 ≠ JSVal.null ∧
    memoize4Step nullProbe [] [.fnVal 0] =
      ⟨.ok (.str "saw function"), [("[null]", .str "saw function")], 1⟩ ∧
    memoize4Step nullProbe [("[null]", .str "saw function")] [.null] =
      ⟨.ok (.str "saw function"), [("[null]", .str "saw function")], 0⟩ ∧
    nullProbe [.null] = .ok (.str "saw other") :=
  ⟨by decide, by decide, by decide, by decide, rfl⟩

/-- Claim C6 (amended): under the structural strategy non-serializable
arguments produce no distinct key-derivation error; function values
serialize as `null` inside the argument array, silently yielding
colliding keys, and every error a memoized call raises originates from
the wrapped `fn` itself (for `memoize4` and `memoize3` alike).
Circular argument structures are not representable in the inductive
value model. -/
theorem memoize4_errors_only_from_fn (fn : List JSVal → Except String JSVal)
    (c : Cache) (args : List JSVal) (e : String) :
    stringifyArgs [.fnVal 0] = stringifyArgs [.null] ∧
    ((memoize4Step fn c args).ret = .error e → fn args = .error e) ∧
    ((memoize3Step fn c args).ret = .error e → fn args = .error e) := by
  refine ⟨by decide, ?_, ?_⟩
  · unfold memoize4Step
    cases hin : jsIn c (stringifyArgs args)
    · cases hf : fn args with
      | ok v => intro h; simp [hin, hf] at h
      | error e' =>
        intro h
        simp only [hin, Bool.false_eq_true, if_false, hf] at h
        exact h
    · intro h; simp [hin] at h
  · unfold memoize3Step
    cases hin : jsIn c (memoize3Key args)
    · cases hf : fn args with
      | ok v => intro h; simp [hin, hf] at h
      | error e' =>
        intro h
        simp only [hin, Bool.false_eq_true, if_false, hf] at h
        exact h
    · intro h; simp [hin] at h

/-- Concrete instantiation of `memoize4_errors_only_from_fn`: the one
error a throwing `fn` produces is `fn`'s own. -/
theorem memoize4_errors_only_from_fn_witness :
    (fun (_ : List JSVal) => (Except.error "boom" : Except String JSVal)) [.null] =
      .error "boom" :=
  (memoize4_errors_only_from_fn (fun _ => .error "boom") [] [.null] "boom").2.1 (by decide)

/-! ### Injectivity of the structural key on serializable values

`JSON.stringify` output can be decoded unambiguously: numbers are
maximal digit runs (delimited in context by non-digit characters),
strings are quote-delimited with an unambiguous escape code, arrays
and objects are bracket-delimited.  The lemmas below make that precise
and culminate in `stringifyArgs_inj`.
-/

/-- The continuation after a number never starts with a digit. -/
def bnd (r : List Char) : Prop := ∀ c, r.head? = some c → ¬ isDigitCh c

theorem bnd_nil : bnd [] := fun _ h => by cases h

theorem bnd_cons {c : Char} {r : List Char} (h : ¬ isDigitCh c) : bnd (c :: r) :=
  fun c' h' => by
    simp only [List.head?] at h'
    rw [← (Option.some.injEq _ _).mp h']
    exact h

theorem digitRun_append_inj : ∀ {xs ys r s : List Char},
    (∀ c ∈ xs, isDigitCh c) → (∀ c ∈ ys, isDigitCh c) → bnd r → bnd s →
    xs ++ r = ys ++ s → xs = ys ∧ r = s
  | [], [], r, s, _, _, _, _, h => ⟨rfl, h⟩
  | [], y :: ys, r, s, _, hy, hr, _, h => by
    exfalso
    have : r.head? = some y := by
      have h' : r = y :: (ys ++ s) := by simpa using h
      rw [h']; rfl
    exact hr y this (hy y (List.mem_cons_self _ _))
  | x :: xs, [], r, s, hx, _, _, hs, h => by
    exfalso
    have : s.head? = some x := by
      have h' : s = x :: (xs ++ r) := by simpa using h.symm
      rw [h']; rfl
    exact hs x this (hx x (List.mem_cons_self _ _))
  | x :: xs, y :: ys, r, s, hx, hy, hr, hs, h => by
    simp only [List.cons_append, List.cons.injEq] at h
    obtain ⟨rfl, h2⟩ := h
    obtain ⟨h3, h4⟩ := digitRun_append_inj
      (fun c hc => hx c (List.mem_cons_of_mem _ hc))
      (fun c hc => hy c (List.mem_cons_of_mem _ hc)) hr hs h2
    exact ⟨by rw [h3], h4⟩

theorem natDigits_append_inj {m n : Nat} {r s : List Char}
    (hr : bnd r) (hs : bnd s) (h : natDigits m ++ r = natDigits n ++ s) :
    m = n ∧ r = s := by
  obtain ⟨h1, h2⟩ := digitRun_append_inj
    (natDigits_all_digits m) (natDigits_all_digits n) hr hs h
  exact ⟨natDigits_inj h1, h2⟩

theorem intChars_append_inj {a b : Int} {r s : List Char}
    (hr : bnd r) (hs : bnd s) (h : intChars a ++ r = intChars b ++ s) :
    a = b ∧ r = s := by
  unfold intChars at h
  by_cases ha : a < 0 <;> by_cases hb : b < 0
  · simp only [ha, hb, if_true, List.cons_append, List.cons.injEq] at h
    obtain ⟨h1, h2⟩ := natDigits_append_inj hr hs h.2
    exact ⟨by omega, h2⟩
  · exfalso
    simp only [ha, hb, if_true, if_false, List.cons_append] at h
    obtain ⟨c, tl, hct⟩ : ∃ c tl, natDigits b.toNat = c :: tl := by
      cases hq : natDigits b.toNat with
      | nil => exact absurd hq (natDigits_ne_nil _)
      | cons c tl => exact ⟨c, tl, rfl⟩
    rw [hct] at h
    simp only [List.cons_append, List.cons.injEq] at h
    have hd : isDigitCh c := natDigits_all_digits b.toNat c (by rw [hct]; exact List.mem_cons_self _ _)
    rw [← h.1] at hd
    revert hd
    decide
  · exfalso
    simp only [ha, hb, if_true, if_false, List.cons_append] at h
    obtain ⟨c, tl, hct⟩ : ∃ c tl, natDigits a.toNat = c :: tl := by
      cases hq : natDigits a.toNat with
      | nil => exact absurd hq (natDigits_ne_nil _)
      | cons c tl => exact ⟨c, tl, rfl⟩
    rw [hct] at h
    simp only [List.cons_append, List.cons.injEq] at h
    have hd : isDigitCh c := natDigits_all_digits a.toNat c (by rw [hct]; exact List.mem_cons_self _ _)
    rw [h.1] at hd
    revert hd
    decide
  · simp only [ha, hb, if_false] at h
    obtain ⟨h1, h2⟩ := natDigits_append_inj hr hs h
    exact ⟨by omega, h2⟩

/-- Value of a lowercase hexadecimal digit character. -/
def hexVal (c : Char) : Nat :=
  if c.toNat ≤ 57 then c.toNat - 48 else c.toNat - 87

/-- Decode the first character of an escaped JSON string body,
returning it together with the number of input characters consumed.
This is the inverse of `escChar` (`escDec_escChar`) and makes the
escape code a prefix code. -/
def escDec : List Char → Option (Char × Nat)
  | [] => none
  | c :: tl =>
    if c = bsc then
      match tl with
      | [] => none
      | e :: tl2 =>
        if e = qc then some (qc, 2)
        else if e = bsc then some (bsc, 2)
        else if e = 'b' then some (Char.ofNat 8, 2)
        else if e = 't' then some (Char.ofNat 9, 2)
        else if e = 'n' then some (Char.ofNat 10, 2)
        else if e = 'f' then some (Char.ofNat 12, 2)
        else if e = 'r' then some (Char.ofNat 13, 2)
        else if e = 'u' then
          match tl2 with
          | _ :: _ :: h1 :: h2 :: _ => some (Char.ofNat (16 * hexVal h1 + hexVal h2), 6)
          | _ => none
        else none
    else some (c, 1)

theorem hexVal_hexDigit {x : Nat} (h : x < 16) : hexVal (hexDigit x) = x := by
  interval_cases x <;> decide

theorem escDec_escChar (c : Char) (rest : List Char) :
    escDec (escChar c ++ rest) = some (c, (escChar c).length) := by
  unfold escChar
  by_cases h1 : c = qc
  · subst h1; simp [escDec, qc, bsc]
  by_cases h2 : c = bsc
  · subst h2; simp [escDec, qc, bsc]
  by_cases h3 : c.toNat = 8
  · have hc : c = Char.ofNat 8 := by rw [← h3, Char.ofNat_toNat]
    simp [h1, h2, h3, escDec, qc, bsc, hc]
  by_cases h4 : c.toNat = 9
  · have hc : c = Char.ofNat 9 := by rw [← h4, Char.ofNat_toNat]
    simp [h1, h2, h3, h4, escDec, qc, bsc, hc]
  by_cases h5 : c.toNat = 10
  · have hc : c = Char.ofNat 10 := by rw [← h5, Char.ofNat_toNat]
    simp [h1, h2, h3, h4, h5, escDec, qc, bsc, hc]
  by_cases h6 : c.toNat = 12
  · have hc : c = Char.ofNat 12 := by rw [← h6, Char.ofNat_toNat]
    simp [h1, h2, h3, h4, h5, h6, escDec, qc, bsc, hc]
  by_cases h7 : c.toNat = 13
  · have hc : c = Char.ofNat 13 := by rw [← h7, Char.ofNat_toNat]
    simp [h1, h2, h3, h4, h5, h6, h7, escDec, qc, bsc, hc]
  by_cases h8 : c.toNat < 32
  · have hv1 : hexVal (hexDigit (c.toNat / 16)) = c.toNat / 16 :=
      hexVal_hexDigit (by omega)
    have hv2 : hexVal (hexDigit (c.toNat % 16)) = c.toNat % 16 :=
      hexVal_hexDigit (by omega)
    have hc : Char.ofNat (16 * (c.toNat / 16) + c.toNat % 16) = c := by
      rw [show 16 * (c.toNat / 16) + c.toNat % 16 = c.toNat by omega, Char.ofNat_toNat]
    have hu1 : ¬ (('u' : Char) = qc) := by decide
    have hu2 : ¬ (('u' : Char) = bsc) := by decide
    simp [h1, h2, h3, h4, h5, h6, h7, h8, escDec, hv1, hv2, hc, hu1, hu2]
  · simp [h1, h2, h3, h4, h5, h6, h7, h8, escDec]

theorem escChar_append_inj {c d : Char} {u v : List Char}
    (h : escChar c ++ u = escChar d ++ v) : c = d ∧ u = v := by
  have e1 := escDec_escChar c u
  have e2 := escDec_escChar d v
  rw [h, e2] at e1
  have hcd : d = c ∧ (escChar d).length = (escChar c).length := by
    have := (Option.some.injEq _ _).mp e1
    exact ⟨congrArg Prod.fst this, congrArg Prod.snd this⟩
  obtain ⟨rfl, _⟩ := hcd
  refine ⟨rfl, ?_⟩
  have hdrop := congrArg (List.drop (escChar d).length) h
  simpa using hdrop

theorem escList_append_inj : ∀ {a b r s : List Char},
    escList a ++ (qc :: r) = escList b ++ (qc :: s) → a = b ∧ r = s
  | [], [], r, s, h => ⟨rfl, by simpa [escList] using h⟩
  | [], d :: b', r, s, h => by
    exfalso
    have h' : qc :: r = escChar d ++ (escList b' ++ (qc :: s)) := by
      simpa [escList, List.append_assoc] using h
    have e2 := escDec_escChar d (escList b' ++ (qc :: s))
    rw [← h'] at e2
    have e1 : escDec (qc :: r) = some (qc, 1) := by
      have : ¬ (qc = bsc) := by decide
      simp [escDec, this]
    rw [e1] at e2
    have := (Option.some.injEq _ _).mp e2
    have hd : qc = d := congrArg Prod.fst this
    have hlen : 1 = (escChar d).length := congrArg Prod.snd this
    rw [← hd] at hlen
    revert hlen
    decide
  | c :: a', [], r, s, h => by
    exfalso
    have h' : qc :: s = escChar c ++ (escList a' ++ (qc :: r)) := by
      simpa [escList, List.append_assoc] using h.symm
    have e2 := escDec_escChar c (escList a' ++ (qc :: r))
    rw [← h'] at e2
    have e1 : escDec (qc :: s) = some (qc, 1) := by
      have : ¬ (qc = bsc) := by decide
      simp [escDec, this]
    rw [e1] at e2
    have := (Option.some.injEq _ _).mp e2
    have hd : qc = c := congrArg Prod.fst this
    have hlen : 1 = (escChar c).length := congrArg Prod.snd this
    rw [← hd] at hlen
    revert hlen
    decide
  | c :: a', d :: b', r, s, h => by
    have h' : escChar c ++ (escList a' ++ (qc :: r)) =
        escChar d ++ (escList b' ++ (qc :: s)) := by
      simpa [escList, List.append_assoc] using h
    obtain ⟨rfl, h2⟩ := escChar_append_inj h'
    obtain ⟨h3, h4⟩ := escList_append_inj h2
    exact ⟨by rw [h3], h4⟩

theorem encStr_append_inj {a b : String} {r s : List Char}
    (h : encStr a ++ r = encStr b ++ s) : a = b ∧ r = s := by
  unfold encStr at h
  simp only [List.cons_append, List.cons.injEq, List.append_assoc] at h
  obtain ⟨ha, hb⟩ := escList_append_inj h.2
  exact ⟨by cases a; cases b; exact congrArg String.mk (by simpa using ha),
    by simpa using hb⟩

theorem cons_append_head_ne {c d : Char} {x y u v : List Char} (hne : c ≠ d) :
    (c :: x) ++ u ≠ (d :: y) ++ v := fun h => hne (List.cons.inj h).1

theorem intChars_append_ne_cons {i : Int} {x u v : List Char} {d : Char}
    (hd : ¬ isDigitCh d) (hd2 : d ≠ '-') : intChars i ++ u ≠ (d :: x) ++ v := by
  intro h
  unfold intChars at h
  by_cases hi : i < 0
  · simp only [hi, if_true, List.cons_append, List.cons.injEq] at h
    exact hd2 h.1.symm
  · simp only [hi, if_false] at h
    obtain ⟨c, tl, hct⟩ : ∃ c tl, natDigits i.toNat = c :: tl := by
      cases hq : natDigits i.toNat with
      | nil => exact absurd hq (natDigits_ne_nil _)
      | cons c tl => exact ⟨c, tl, rfl⟩
    rw [hct] at h
    simp only [List.cons_append, List.cons.injEq] at h
    have hdig : isDigitCh c :=
      natDigits_all_digits i.toNat c (by rw [hct]; exact List.mem_cons_self _ _)
    rw [h.1] at hdig
    exact hd hdig

theorem bnd_encLT_bracket (tl : JSList) (r : List Char) :
    bnd (encLT tl ++ (']' :: r)) := by
  cases tl with
  | nil => exact bnd_cons (by decide)
  | cons v tl =>
    show bnd ((',' :: (encV v ++ encLT tl)) ++ (']' :: r))
    exact bnd_cons (by decide)

theorem bnd_encPT_brace : ∀ (ps : JSPairs) (r : List Char), bnd (encPT ps ++ (rbr :: r))
  | .nil, r => bnd_cons (by decide)
  | .cons k v tl, r => by
    unfold encPT
    by_cases he : emittable v
    · simp only [he, if_true]
      show bnd ((',' :: (encStr k ++ (':' :: encV v) ++ encPT tl)) ++ (rbr :: r))
      exact bnd_cons (by decide)
    · simp only [he, Bool.false_eq_true, if_false]
      exact bnd_encPT_brace tl r

theorem emittable_of_serV {v : JSVal} (h : serV v = true) : emittable v = true := by
  cases v <;> simp [serV, emittable] at h ⊢

theorem serL_cons {v : JSVal} {tl : JSList} (h : serL (.cons v tl) = true) :
    serV v = true ∧ serL tl = true := by
  have h' : (serV v && serL tl) = true := h
  simpa using h'

theorem serP_cons {k : String} {v : JSVal} {tl : JSPairs}
    (h : serP (.cons k v tl) = true) : serV v = true ∧ serP tl = true := by
  have h' : (serV v && serP tl) = true := h
  simpa using h'

theorem encV_head_catalog (v : JSVal) : ∃ c tl, encV v = c :: tl ∧
    (isDigitCh c ∨ c = '-' ∨ c = qc ∨ c = 't' ∨ c = 'f' ∨ c = 'n' ∨ c = '[' ∨ c = lbr) := by
  cases v with
  | num i =>
    show ∃ c tl, intChars i = c :: tl ∧ _
    unfold intChars
    by_cases hi : i < 0
    · exact ⟨'-', natDigits i.natAbs, by simp [hi], Or.inr (Or.inl rfl)⟩
    · obtain ⟨c, tl, hct⟩ : ∃ c tl, natDigits i.toNat = c :: tl := by
        cases hq : natDigits i.toNat with
        | nil => exact absurd hq (natDigits_ne_nil _)
        | cons c tl => exact ⟨c, tl, rfl⟩
      refine ⟨c, tl, by simp [hi, hct], Or.inl ?_⟩
      exact natDigits_all_digits i.toNat c (by rw [hct]; exact List.mem_cons_self _ _)
  | str s => exact ⟨qc, escList s.data ++ [qc], rfl, Or.inr (Or.inr (Or.inl rfl))⟩
  | bool b =>
    cases b
    · exact ⟨'f', ['a', 'l', 's', 'e'], rfl, by simp⟩
    · exact ⟨'t', ['r', 'u', 'e'], rfl, by simp⟩
  | null => exact ⟨'n', ['u', 'l', 'l'], rfl, by simp⟩
  | undefined => exact ⟨'n', ['u', 'l', 'l'], rfl, by simp⟩
  | fnVal id => exact ⟨'n', ['u', 'l', 'l'], rfl, by simp⟩
  | protoMember name => exact ⟨'n', ['u', 'l', 'l'], rfl, by simp⟩
  | arr xs => exact ⟨'[', encL xs ++ [']'], rfl, by simp⟩
  | obj ps => exact ⟨lbr, encP ps ++ [rbr], rfl, by simp⟩

theorem head_of_cons_append {d c : Char} {x y u : List Char}
    (h : d :: x = (c :: y) ++ u) : d = c := (List.cons.inj h).1

theorem ne_cons_encV_append {v : JSVal} {d : Char} {x u : List Char}
    (hd : ¬ (isDigitCh d ∨ d = '-' ∨ d = qc ∨ d = 't' ∨ d = 'f' ∨ d = 'n' ∨
             d = '[' ∨ d = lbr))
    (h : d :: x = encV v ++ u) : False := by
  obtain ⟨c, tl, he, hc⟩ := encV_head_catalog v
  rw [he] at h
  rw [head_of_cons_append h] at hd
  exact hd hc

mutual
theorem encVInj (a b : JSVal) (r s : List Char) (ha : serV a = true) (hb : serV b = true)
    (hr : bnd r) (hs : bnd s) (h : encV a ++ r = encV b ++ s) : a = b ∧ r = s := by
  cases a with
  | undefined => simp [serV] at ha
  | fnVal id => simp [serV] at ha
  | protoMember name => simp [serV] at ha
  | num i =>
    cases b with
    | undefined => simp [serV] at hb
    | fnVal id => simp [serV] at hb
    | protoMember name => simp [serV] at hb
    | num j =>
      obtain ⟨h1, h2⟩ := intChars_append_inj hr hs h
      exact ⟨by rw [h1], h2⟩
    | str t => exact absurd h (intChars_append_ne_cons (by decide) (by decide))
    | bool b2 =>
      cases b2
      · exact absurd h (intChars_append_ne_cons (by decide) (by decide))
      · exact absurd h (intChars_append_ne_cons (by decide) (by decide))
    | null => exact absurd h (intChars_append_ne_cons (by decide) (by decide))
    | arr ys => exact absurd h (intChars_append_ne_cons (by decide) (by decide))
    | obj qs => exact absurd h (intChars_append_ne_cons (by decide) (by decide))
  | str t =>
    cases b with
    | undefined => simp [serV] at hb
    | fnVal id => simp [serV] at hb
    | protoMember name => simp [serV] at hb
    | num j => exact absurd h.symm (intChars_append_ne_cons (by decide) (by decide))
    | str t2 =>
      obtain ⟨h1, h2⟩ := encStr_append_inj h
      exact ⟨by rw [h1], h2⟩
    | bool b2 =>
      cases b2
      · exact absurd h (cons_append_head_ne (by decide))
      · exact absurd h (cons_append_head_ne (by decide))
    | null => exact absurd h (cons_append_head_ne (by decide))
    | arr ys => exact absurd h (cons_append_head_ne (by decide))
    | obj qs => exact absurd h (cons_append_head_ne (by decide))
  | bool b1 =>
    cases b with
    | undefined => simp [serV] at hb
    | fnVal id => simp [serV] at hb
    | protoMember name => simp [serV] at hb
    | num j =>
      cases b1
      · exact absurd h.symm (intChars_append_ne_cons (by decide) (by decide))
      · exact absurd h.symm (intChars_append_ne_cons (by decide) (by decide))
    | str t2 =>
      cases b1
      · exact absurd h (cons_append_head_ne (by decide))
      · exact absurd h (cons_append_head_ne (by decide))
    | bool b2 =>
      cases b1 <;> cases b2
      · exact ⟨rfl, by simpa [encV] using h⟩
      · exact absurd h (cons_append_head_ne (by decide))
      · exact absurd h (cons_append_head_ne (by decide))
      · exact ⟨rfl, by simpa [encV] using h⟩
    | null =>
      cases b1
      · exact absurd h (cons_append_head_ne (by decide))
      · exact absurd h (cons_append_head_ne (by decide))
    | arr ys =>
      cases b1
      · exact absurd h (cons_append_head_ne (by decide))
      · exact absurd h (cons_append_head_ne (by decide))
    | obj qs =>
      cases b1
      · exact absurd h (cons_append_head_ne (by decide))
      · exact absurd h (cons_append_head_ne (by decide))
  | null =>
    cases b with
    | undefined => simp [serV] at hb
    | fnVal id => simp [serV] at hb
    | protoMember name => simp [serV] at hb
    | num j => exact absurd h.symm (intChars_append_ne_cons (by decide) (by decide))
    | str t2 => exact absurd h (cons_append_head_ne (by decide))
    | bool b2 =>
      cases b2
      · exact absurd h (cons_append_head_ne (by decide))
      · exact absurd h (cons_append_head_ne (by decide))
    | null => exact ⟨rfl, by simpa [encV] using h⟩
    | arr ys => exact absurd h (cons_append_head_ne (by decide))
    | obj qs => exact absurd h (cons_append_head_ne (by decide))
  | arr xs =>
    cases b with
    | undefined => simp [serV] at hb
    | fnVal id => simp [serV] at hb
    | protoMember name => simp [serV] at hb
    | num j => exact absurd h.symm (intChars_append_ne_cons (by decide) (by decide))
    | str t2 => exact absurd h (cons_append_head_ne (by decide))
    | bool b2 =>
      cases b2
      · exact absurd h (cons_append_head_ne (by decide))
      · exact absurd h (cons_append_head_ne (by decide))
    | null => exact absurd h (cons_append_head_ne (by decide))
    | arr ys =>
      have h' : encL xs ++ (']' :: r) = encL ys ++ (']' :: s) := by
        simpa [encV, List.append_assoc] using h
      obtain ⟨h1, h2⟩ := encLInj xs ys r s ha hb h'
      exact ⟨by rw [h1], h2⟩
    | obj qs => exact absurd h (cons_append_head_ne (by decide))
  | obj ps =>
    cases b with
    | undefined => simp [serV] at hb
    | fnVal id => simp [serV] at hb
    | protoMember name => simp [serV] at hb
    | num j => exact absurd h.symm (intChars_append_ne_cons (by decide) (by decide))
    | str t2 => exact absurd h (cons_append_head_ne (by decide))
    | bool b2 =>
      cases b2
      · exact absurd h (cons_append_head_ne (by decide))
      · exact absurd h (cons_append_head_ne (by decide))
    | null => exact absurd h (cons_append_head_ne (by decide))
    | arr ys => exact absurd h (cons_append_head_ne (by decide))
    | obj qs =>
      have h' : encP ps ++ (rbr :: r) = encP qs ++ (rbr :: s) := by
        simpa [encV, List.append_assoc] using h
      obtain ⟨h1, h2⟩ := encPInj ps qs r s ha hb h'
      exact ⟨by rw [h1], h2⟩

theorem encLInj (xs ys : JSList) (r s : List Char) (hx : serL xs = true)
    (hy : serL ys = true) (h : encL xs ++ (']' :: r) = encL ys ++ (']' :: s)) :
    xs = ys ∧ r = s := by
  cases xs with
  | nil =>
    cases ys with
    | nil => exact ⟨rfl, by simpa [encL] using h⟩
    | cons w tw =>
      exfalso
      have h' : ']' :: r = encV w ++ (encLT tw ++ (']' :: s)) := by
        simpa [encL, List.append_assoc] using h
      exact ne_cons_encV_append (by decide) h'
  | cons v tv =>
    cases ys with
    | nil =>
      exfalso
      have h' : ']' :: s = encV v ++ (encLT tv ++ (']' :: r)) := by
        simpa [encL, List.append_assoc] using h.symm
      exact ne_cons_encV_append (by decide) h'
    | cons w tw =>
      obtain ⟨hv, htv⟩ := serL_cons hx
      obtain ⟨hw, htw⟩ := serL_cons hy
      have h' : encV v ++ (encLT tv ++ (']' :: r)) =
          encV w ++ (encLT tw ++ (']' :: s)) := by
        simpa [encL, List.append_assoc] using h
      obtain ⟨h1, h2⟩ := encVInj v w _ _ hv hw
        (bnd_encLT_bracket tv r) (bnd_encLT_bracket tw s) h'
      obtain ⟨h3, h4⟩ := encLTInj tv tw r s htv htw h2
      exact ⟨by rw [h1, h3], h4⟩

theorem encLTInj (xs ys : JSList) (r s : List Char) (hx : serL xs = true)
    (hy : serL ys = true) (h : encLT xs ++ (']' :: r) = encLT ys ++ (']' :: s)) :
    xs = ys ∧ r = s := by
  cases xs with
  | nil =>
    cases ys with
    | nil => exact ⟨rfl, by simpa [encLT] using h⟩
    | cons w tw =>
      exfalso
      have h' : ']' :: r = ',' :: (encV w ++ (encLT tw ++ (']' :: s))) := by
        simp only [encLT, List.cons_append, List.append_assoc] at h
        exact h
      have := head_of_cons_append (show (']' : Char) :: r = (',' :: _) ++ _ from by
        rw [h']; rfl)
      revert this
      decide
  | cons v tv =>
    cases ys with
    | nil =>
      exfalso
      have h' : ']' :: s = ',' :: (encV v ++ (encLT tv ++ (']' :: r))) := by
        simpa [encLT, List.append_assoc] using h.symm
      have := head_of_cons_append (show (']' : Char) :: s = (',' :: _) ++ _ from by
        rw [h']; rfl)
      revert this
      decide
    | cons w tw =>
      obtain ⟨hv, htv⟩ := serL_cons hx
      obtain ⟨hw, htw⟩ := serL_cons hy
      have h' : encV v ++ (encLT tv ++ (']' :: r)) =
          encV w ++ (encLT tw ++ (']' :: s)) := by
        have h0 : ',' :: (encV v ++ (encLT tv ++ (']' :: r))) =
            ',' :: (encV w ++ (encLT tw ++ (']' :: s))) := by
          simpa [encLT, List.append_assoc] using h
        exact (List.cons.inj h0).2
      obtain ⟨h1, h2⟩ := encVInj v w _ _ hv hw
        (bnd_encLT_bracket tv r) (bnd_encLT_bracket tw s) h'
      obtain ⟨h3, h4⟩ := encLTInj tv tw r s htv htw h2
      exact ⟨by rw [h1, h3], h4⟩

theorem encPInj (ps qs : JSPairs) (r s : List Char) (hp : serP ps = true)
    (hq : serP qs = true) (h : encP ps ++ (rbr :: r) = encP qs ++ (rbr :: s)) :
    ps = qs ∧ r = s := by
  cases ps with
  | nil =>
    cases qs with
    | nil => exact ⟨rfl, by simpa [encP] using h⟩
    | cons k w tw =>
      exfalso
      obtain ⟨hw, htw⟩ := serP_cons hq
      have hew := emittable_of_serV hw
      have h' : rbr :: r =
          encStr k ++ ((':' :: encV w) ++ (encPT tw ++ (rbr :: s))) := by
        simpa [encP, hew, List.append_assoc] using h
      have hdc : rbr = qc := head_of_cons_append (show rbr :: r = (qc :: _) ++ _ from by
        rw [h']; rfl)
      revert hdc
      decide
  | cons k v tv =>
    cases qs with
    | nil =>
      exfalso
      obtain ⟨hv, htv⟩ := serP_cons hp
      have hev := emittable_of_serV hv
      have h' : rbr :: s =
          encStr k ++ ((':' :: encV v) ++ (encPT tv ++ (rbr :: r))) := by
        simpa [encP, hev, List.append_assoc] using h.symm
      have hdc : rbr = qc := head_of_cons_append (show rbr :: s = (qc :: _) ++ _ from by
        rw [h']; rfl)
      revert hdc
      decide
    | cons k2 w tw =>
      obtain ⟨hv, htv⟩ := serP_cons hp
      obtain ⟨hw, htw⟩ := serP_cons hq
      have hev := emittable_of_serV hv
      have hew := emittable_of_serV hw
      have h' : encStr k ++ (':' :: (encV v ++ (encPT tv ++ (rbr :: r)))) =
          encStr k2 ++ (':' :: (encV w ++ (encPT tw ++ (rbr :: s)))) := by
        simpa [encP, hev, hew, List.append_assoc] using h
      obtain ⟨hk, h2⟩ := encStr_append_inj h'
      have h3 := (List.cons.inj h2).2
      obtain ⟨h4, h5⟩ := encVInj v w _ _ hv hw
        (bnd_encPT_brace tv r) (bnd_encPT_brace tw s) h3
      obtain ⟨h6, h7⟩ := encPTInj tv tw r s htv htw h5
      exact ⟨by rw [hk, h4, h6], h7⟩

theorem encPTInj (ps qs : JSPairs) (r s : List Char) (hp : serP ps = true)
    (hq : serP qs = true) (h : encPT ps ++ (rbr :: r) = encPT qs ++ (rbr :: s)) :
    ps = qs ∧ r = s := by
  cases ps with
  | nil =>
    cases qs with
    | nil => exact ⟨rfl, by simpa [encPT] using h⟩
    | cons k w tw =>
      exfalso
      obtain ⟨hw, htw⟩ := serP_cons hq
      have hew := emittable_of_serV hw
      have h' : rbr :: r =
          ',' :: (encStr k ++ ((':' :: encV w) ++ (encPT tw ++ (rbr :: s)))) := by
        simpa [encPT, hew, List.append_assoc] using h
      have hdc : rbr = ',' := (List.cons.inj h').1
      revert hdc
      decide
  | cons k v tv =>
    cases qs with
    | nil =>
      exfalso
      obtain ⟨hv, htv⟩ := serP_cons hp
      have hev := emittable_of_serV hv
      have h' : rbr :: s =
          ',' :: (encStr k ++ ((':' :: encV v) ++ (encPT tv ++ (rbr :: r)))) := by
        simpa [encPT, hev, List.append_assoc] using h.symm
      have hdc : rbr = ',' := (List.cons.inj h').1
      revert hdc
      decide
    | cons k2 w tw =>
      obtain ⟨hv, htv⟩ := serP_cons hp
      obtain ⟨hw, htw⟩ := serP_cons hq
      have hev := emittable_of_serV hv
      have hew := emittable_of_serV hw
      have h' : encStr k ++ (':' :: (encV v ++ (encPT tv ++ (rbr :: r)))) =
          encStr k2 ++ (':' :: (encV w ++ (encPT tw ++ (rbr :: s)))) := by
        have h0 : ',' :: (encStr k ++ (':' :: (encV v ++ (encPT tv ++ (rbr :: r))))) =
            ',' :: (encStr k2 ++ (':' :: (encV w ++ (encPT tw ++ (rbr :: s))))) := by
          simpa [encPT, hev, hew, List.append_assoc] using h
        exact (List.cons.inj h0).2
      obtain ⟨hk, h2⟩ := encStr_append_inj h'
      have h3 := (List.cons.inj h2).2
      obtain ⟨h4, h5⟩ := encVInj v w _ _ hv hw
        (bnd_encPT_brace tv r) (bnd_encPT_brace tw s) h3
      obtain ⟨h6, h7⟩ := encPTInj tv tw r s htv htw h5
      exact ⟨by rw [hk, h4, h6], h7⟩
end

theorem serL_toJSList : ∀ {a : List JSVal}, serArgs a = true → serL (toJSList a) = true
  | [], _ => rfl
  | x :: xs, h => by
    have h' : serV x = true ∧ serArgs xs = true := by simpa [serArgs] using h
    show (serV x && serL (toJSList xs)) = true
    rw [h'.1, serL_toJSList h'.2]
    rfl

/-- On serializable argument lists, `JSON.stringify` is a canonical
key: two lists get the same key exactly when they are equal. -/
theorem stringifyArgs_inj {a b : List JSVal} (ha : serArgs a = true)
    (hb : serArgs b = true) : stringifyArgs a = stringifyArgs b ↔ a = b := by
  constructor
  · intro h
    have hd : encV (.arr (toJSList a)) ++ ([] : List Char) =
        encV (.arr (toJSList b)) ++ ([] : List Char) := by
      simpa using congrArg String.data h
    have hinj := encVInj (.arr (toJSList a)) (.arr (toJSList b)) [] []
      (serL_toJSList ha) (serL_toJSList hb) bnd_nil bnd_nil hd
    have harr := hinj.1
    injection harr with hxs
    exact toJSList_inj hxs
  · rintro rfl
    rfl

/-- Claim C5 fails as stated: the argument lists `[undefined]` and
`[null]` are structurally different, yet both derive the key
`"[null]"` (for `memoize4`'s always-stringify key and for `memoize3`'s
key alike), so "encoded identically if and only if deeply structurally
equal" does not hold for all argument sequences. -/
theorem structural_key_iff_cex :
    stringifyArgs [.undefined] = stringifyArgs [.null] ∧
    JSVal.undefined ≠ JSVal.null ∧
    memoize3Key [.undefined] = memoize3Key [.null] :=
  ⟨by decide, by decide, by decide⟩

/-- Claim C5 (amended): on *serializable* argument lists (no function
values, no `undefined` anywhere), the structural key is a canonical
deterministic string encoding — two argument lists are encoded
identically exactly when they are equal, order included: `(1, 2)` and
`(2, 1)` get distinct keys.  The key of `[1, {a: 2}]` is the literal
`"[1,{\"a\":2}]"`, a pure function of the argument structure. -/
theorem structural_key_canonical (a b : List JSVal)
    (ha : serArgs a = true) (hb : serArgs b = true) :
    (stringifyArgs a = stringifyArgs b ↔ a = b) ∧
    stringifyArgs [.num 1, .obj (.cons "a" (.num 2) .nil)] = "[1,\x7b\"a\":2\x7d]" ∧
    stringifyArgs [.num 1, .num 2] ≠ stringifyArgs [.num 2, .num 1] ∧
    memoize3Key [.num 1, .num 2] ≠ memoize3Key [.num 2, .num 1] :=
  ⟨stringifyArgs_inj ha hb, by decide, by decide, by decide⟩

/-- Concrete instantiation of `structural_key_canonical` at the
structurally different serializable lists `[1]` and `["1"]`. -/
theorem structural_key_canonical_witness :
    (stringifyArgs [.num 1] = stringifyArgs [.str "1"] ↔
      ([JSVal.num 1] : List JSVal) = [.str "1"]) ∧
    stringifyArgs [.num 1, .obj (.cons "a" (.num 2) .nil)] = "[1,\x7b\"a\":2\x7d]" ∧
    stringifyArgs [.num 1, .num 2] ≠ stringifyArgs [.num 2, .num 1] ∧
    memoize3Key [.num 1, .num 2] ≠ memoize3Key [.num 2, .num 1] :=
  structural_key_canonical [.num 1] [.str "1"] (by decide) (by decide)
